import Mathlib

/-!
# PasswordManager (src/manager.cpp)

A shallow embedding of `PasswordNS::PasswordManager`.

* A `std::string` is a list of `char`s (`Str`); one list element is one `char`.
* The member variables of the object are the fields of `PasswordManager`.
* Everything outside the object that the methods touch (the files they open, the
  console they print to) is the explicit state `World`.
* A method is a function from the object and the world to a `Step`: how the call
  ended (returned a value, or threw), and the object and the world as the call
  left them.  A call that throws still hands back the state it had reached.
-/

set_option autoImplicit false

namespace PasswordNS

/-- A `std::string`: its characters in order. -/
abbrev Str := List Char

/-- The exceptions the methods of manager.cpp throw, one constructor per `throw`. -/
inductive Exn where
  /-- line 61: `std::invalid_argument("Password is too weak! ...")` -/
  | weakPassword
  /-- line 104: `std::invalid_argument("Service not found.")` -/
  | serviceNotFound
  /-- line 142: `std::ios_base::failure("Unable to open temporary file for writing.")` -/
  | tempOpenWrite
  /-- line 152: `std::runtime_error("Failed to compress user credentials.")` -/
  | compressFailed
  /-- line 167: `std::runtime_error("Failed to decompress user credentials.")` -/
  | decompressFailed
  /-- line 173: `std::ios_base::failure("Unable to open temporary file for reading.")` -/
  | tempOpenRead
  /-- line 198: `std::ios_base::failure("Unable to open '<user>_passwords.dat' for reading.")` -/
  | credOpenRead
  /-- line 212: `std::ios_base::failure("Unable to open '<user>_passwords.dat' for writing.")` -/
  | credOpenWrite
  deriving DecidableEq

/-- How a call ended. -/
inductive Outcome (α : Type) where
  | returned (value : α)
  | threw (e : Exn)
  deriving DecidableEq

/-- The environment of the process: the files by path (`none`: no such file), which
paths can be opened for reading and for writing, and what was printed to `std::cout`. -/
structure World where
  files : Str → Option Str
  canRead : Str → Bool
  canWrite : Str → Bool
  cout : Str

/-- The result of `std::ofstream f(path, std::ios::trunc)`: when the file can be opened it
exists and is empty afterwards; `none` stands for `!f.is_open()`. -/
def World.ofstream_trunc (w : World) (path : Str) : Option World :=
  if w.canWrite path then
    some { w with files := fun q => if q = path then some [] else w.files q }
  else none

/-- The result of `f << s` on a stream opened on `path`: `s` is added at the end of the file. -/
def World.write (w : World) (path : Str) (s : Str) : World :=
  { w with files := fun q => if q = path then some ((w.files q).getD [] ++ s) else w.files q }

/-- The result of `std::ifstream f(path)`: the content of the file, or `none` for `!f.is_open()`
(no such file, or it cannot be read). -/
def World.ifstream (w : World) (path : Str) : Option Str :=
  if w.canRead path then w.files path else none

/-- The result of `std::remove(path)`. -/
def World.remove (w : World) (path : Str) : World :=
  { w with files := fun q => if q = path then none else w.files q }

/-- The result of `std::cout << s`. -/
def World.print (w : World) (s : Str) : World :=
  { w with cout := w.cout ++ s }

/-- The member variables of `PasswordManager`.  `credentials` is the
`std::vector<std::pair<std::string, std::string>>` of (service name, "username:password").
`encryptionKey` is declared in manager.h, which is not among the sources; its value is
left open. -/
structure PasswordManager where
  credentials : List (Str × Str)
  username : Str
  mainPassword : Str
  encryptionKey : Str

/-- What a method call leaves behind. -/
structure Step (α : Type) where
  result : Outcome α
  self : PasswordManager
  world : World

/-- The file of the owner: `username + "_passwords.dat"` (lines 196 and 210). -/
def credentialsPath (pm : PasswordManager) : Str :=
  pm.username ++ "_passwords.dat".toList

/-- Lines 43-45, `encrypt`: prints one line, transforms nothing. -/
def encrypt (pm : PasswordManager) (w : World) (_data : Str) : World :=
  w.print ("Encrypting data with key: ".toList ++ pm.encryptionKey ++ "\n".toList)

/-- Lines 48-50, `validate`: `password.length() > 8`. -/
def validate (_pm : PasswordManager) (password : Str) : Bool :=
  decide (password.length > 8)

/-- Lines 209-218, `saveCredentialsToFile`: opens the owner's file truncating it, throws when
it is not open, and writes `first << " " << second << std::endl` for every entry in order. -/
def saveCredentialsToFile (pm : PasswordManager) (w : World) : Step Unit :=
  match w.ofstream_trunc (credentialsPath pm) with
  | none => ⟨.threw .credOpenWrite, pm, w⟩
  | some w1 =>
    ⟨.returned (), pm,
      pm.credentials.foldl
        (fun file entry =>
          file.write (credentialsPath pm) (entry.1 ++ " ".toList ++ entry.2 ++ "\n".toList))
        w1⟩

/-- Lines 59-67, `addNewPassword`: throws on a password that does not validate; otherwise
calls `encrypt`, appends `(serviceName, serviceUsername + ":" + password)` to the vector and
calls `saveCredentialsToFile` (whose exception, if any, propagates after the append). -/
def addNewPassword (pm : PasswordManager) (w : World)
    (serviceName serviceUsername password : Str) : Step Unit :=
  if !validate pm password then
    ⟨.threw .weakPassword, pm, w⟩
  else
    let w1 := encrypt pm w password
    let pm1 := { pm with
      credentials := pm.credentials ++ [(serviceName, serviceUsername ++ ":".toList ++ password)] }
    saveCredentialsToFile pm1 w1

/-- The result of `std::remove_if(first, last, pred)` on a vector: the elements for which
`pred` is false, in their original order, are what `[first, it)` holds afterwards, where
`it` is the returned iterator; so `it != last` exactly when the kept elements are fewer
than the elements.  When nothing satisfies `pred` no element is assigned to. -/
def remove_if {α : Type} (pred : α → Bool) (v : List α) : List α :=
  v.filter (fun entry => !pred entry)

/-- Lines 96-106, `deletePassword`: `remove_if` on the service name; when the returned
iterator is not the end, erases the tail and saves, otherwise throws. -/
def deletePassword (pm : PasswordManager) (w : World) (serviceName : Str) : Step Unit :=
  let kept := remove_if (fun entry : Str × Str => decide (entry.1 = serviceName)) pm.credentials
  if kept.length ≠ pm.credentials.length then
    saveCredentialsToFile { pm with credentials := kept } w
  else
    ⟨.threw .serviceNotFound, pm, w⟩

/-- The loop of lines 222-227 over the entries that are left. -/
def getCredentialLoop (serviceName : Str) : List (Str × Str) → Option Str
  | [] => none
  | entry :: rest =>
    if entry.1 = serviceName then some entry.2 else getCredentialLoop serviceName rest

/-- Lines 221-228, `getCredential` (a `const` method): the second component of the first
entry whose first component equals `serviceName`, or `std::nullopt`. -/
def getCredential (pm : PasswordManager) (serviceName : Str) : Option Str :=
  getCredentialLoop serviceName pm.credentials

/-- Lines 231-234, `hasPassword` (a `const` method): `std::any_of` on the service name. -/
def hasPassword (pm : PasswordManager) (serviceName : Str) : Bool :=
  pm.credentials.any (fun entry => decide (entry.1 = serviceName))

/-- An input stream: the characters not yet read and the two state bits that the code
depends on.  A stream is `good` when neither is set. -/
structure IStream where
  buf : Str
  eofbit : Bool
  failbit : Bool

/-- A stream that has just been opened on `content`. -/
def IStream.ofContent (content : Str) : IStream :=
  { buf := content, eofbit := false, failbit := false }

/-- The value of `is.good()`. -/
def IStream.good (is : IStream) : Bool :=
  !is.eofbit && !is.failbit

/-- The value of `std::isspace` in the "C" locale. -/
def isspace (c : Char) : Bool :=
  c = ' ' || c = '\t' || c = '\n' || c = '\x0b' || c = '\x0c' || c = '\r'

/-- The result of `is >> str` for a `std::string`: on a stream that is not good it sets
failbit and leaves `str`; otherwise it skips leading white space and, if the input ends
there, sets eofbit and failbit and leaves `str`; otherwise `str` becomes the characters up
to the next white space or the end of input, and eofbit is set when the end was reached. -/
def extractWord (is : IStream) (str : Str) : IStream × Str :=
  if !is.good then
    ({ is with failbit := true }, str)
  else
    let rest := is.buf.dropWhile isspace
    if rest = [] then
      ({ buf := [], eofbit := true, failbit := true }, str)
    else
      let word := rest.takeWhile (fun c => !isspace c)
      let rest2 := rest.dropWhile (fun c => !isspace c)
      ({ buf := rest2, eofbit := decide (rest2 = []), failbit := false }, word)

/-- The result of `std::getline(is, str, delim)`: on a stream that is not good it sets
failbit and leaves `str`; otherwise `str` becomes the characters before the first `delim`,
which is read and dropped; when there is no `delim` left, `str` becomes all the remaining
characters, eofbit is set, and failbit is set too if there were none. -/
def getline (is : IStream) (str : Str) (delim : Char) : IStream × Str :=
  if !is.good then
    ({ is with failbit := true }, str)
  else
    let before := is.buf.takeWhile (fun c => c ≠ delim)
    match is.buf.dropWhile (fun c => c ≠ delim) with
    | [] => ({ buf := [], eofbit := true, failbit := decide (before = []) }, before)
    | _ :: after => ({ buf := after, eofbit := false, failbit := false }, before)

/-- The loop of lines 203-205, `while (file >> serviceName >> username_password)`, run for
at most `fuel` rounds: a round reads two words and, unless the stream has failed, appends
the pair.  `loadCredentialsFromFile` gives it more rounds than the file has characters. -/
def readCredentials :
    Nat → IStream → Str → Str → List (Str × Str) → List (Str × Str)
  | 0, _, _, _, credentials => credentials
  | fuel + 1, file, serviceName, username_password, credentials =>
    let (file1, serviceName1) := extractWord file serviceName
    let (file2, username_password1) := extractWord file1 username_password
    if file2.failbit then credentials
    else
      readCredentials fuel file2 serviceName1 username_password1
        (credentials ++ [(serviceName1, username_password1)])

/-- Lines 195-206, `loadCredentialsFromFile`: throws when the owner's file cannot be
opened (before touching the vector); otherwise clears the vector and fills it from the
file. -/
def loadCredentialsFromFile (pm : PasswordManager) (w : World) : Step Unit :=
  match w.ifstream (credentialsPath pm) with
  | none => ⟨.threw .credOpenRead, pm, w⟩
  | some content =>
    ⟨.returned (),
      { pm with credentials :=
          readCredentials (content.length + 1) (IStream.ofContent content) [] [] [] },
      w⟩

/-- Modelled from the spec: the Huffman library behind `Compression::compress` and
`Decompression::decompress` (huffman.h) is not among the sources.  The spec gives the
contract `compress(inputPath, outputPath) -> success` and
`decompress(inputPath, outputPath) -> success`; the transformation of the bytes is left
open here as two functions that may fail. -/
structure Codec where
  encode : Str → Option Str
  decode : Str → Option Str

/-- Modelled from the spec: the codec is lossless, "decompress(compress(X)) byte-equals X". -/
def Codec.Lossless (codec : Codec) : Prop :=
  ∀ x y, codec.encode x = some y → codec.decode y = some x

/-- Modelled from the spec: `compress(inputPath, outputPath)` of the missing Huffman
library reads the input file, encodes it and writes the output file; it reports `false`,
having written nothing, when the input cannot be read, the encoder fails or the output
cannot be opened. -/
def Compression.compress (codec : Codec) (w : World) (inputPath outputPath : Str) :
    Bool × World :=
  match w.ifstream inputPath with
  | none => (false, w)
  | some x =>
    match codec.encode x with
    | none => (false, w)
    | some y =>
      match w.ofstream_trunc outputPath with
      | none => (false, w)
      | some w1 => (true, w1.write outputPath y)

/-- Modelled from the spec: `decompress(inputPath, outputPath)` of the missing Huffman
library, the mirror image of `Compression.compress` with the decoder. -/
def Decompression.decompress (codec : Codec) (w : World) (inputPath outputPath : Str) :
    Bool × World :=
  match w.ifstream inputPath with
  | none => (false, w)
  | some y =>
    match codec.decode y with
    | none => (false, w)
    | some x =>
      match w.ofstream_trunc outputPath with
      | none => (false, w)
      | some w1 => (true, w1.write outputPath x)

/-- The scratch file of lines 139 and 163. -/
def tempUserCredentials : Str := "temp_user_credentials.txt".toList

/-- The compressed master file of lines 149 and 162. -/
def compressedFile : Str := "user_credentials.csv".toList

/-- Lines 137-157, `saveUserCredentialsToFile`: writes `username,mainPassword\n` to the
scratch file (throws when it cannot be opened), compresses it into the master file
(throws when that reports failure), then removes the scratch file. -/
def saveUserCredentialsToFile (codec : Codec) (pm : PasswordManager) (w : World) : Step Unit :=
  match w.ofstream_trunc tempUserCredentials with
  | none => ⟨.threw .tempOpenWrite, pm, w⟩
  | some w1 =>
    let w2 := w1.write tempUserCredentials
      (pm.username ++ ",".toList ++ pm.mainPassword ++ "\n".toList)
    let (ok, w3) := Compression.compress codec w2 tempUserCredentials compressedFile
    if !ok then
      ⟨.threw .compressFailed, pm, w3⟩
    else
      ⟨.returned (), pm, w3.remove tempUserCredentials⟩

/-- The loop of lines 177-187, run for at most `fuel` rounds, with the three strings
declared before it (line 176) carried from round to round: a round reads a line, stops
with `false` when that fails, splits the line with two `getline(lineStream, _, ',')` and
stops with `true` when both strings equal the owner's.  `loadUserCredentialsFromFile`
gives it more rounds than the file has characters. -/
def scanUserCredentials (pm : PasswordManager) :
    Nat → IStream → Str → Str → Str → Bool
  | 0, _, _, _, _ => false
  | fuel + 1, tempFile, line, file_username, file_password =>
    let (tempFile1, line1) := getline tempFile line '\n'
    if tempFile1.failbit then false
    else
      let lineStream := IStream.ofContent line1
      let (lineStream1, file_username1) := getline lineStream file_username ','
      let (_, file_password1) := getline lineStream1 file_password ','
      if file_username1 = pm.username && file_password1 = pm.mainPassword then true
      else scanUserCredentials pm fuel tempFile1 line1 file_username1 file_password1

/-- Lines 160-192, `loadUserCredentialsFromFile`: decompresses the master file into the
scratch file (throws when that reports failure), opens the scratch file (throws when it
is not open), scans its lines, and removes the scratch file before returning whether a
line matched. -/
def loadUserCredentialsFromFile (codec : Codec) (pm : PasswordManager) (w : World) : Step Bool :=
  let (ok, w1) := Decompression.decompress codec w compressedFile tempUserCredentials
  if !ok then
    ⟨.threw .decompressFailed, pm, w1⟩
  else
    match w1.ifstream tempUserCredentials with
    | none => ⟨.threw .tempOpenRead, pm, w1⟩
    | some content =>
      ⟨.returned
          (scanUserCredentials pm (content.length + 1) (IStream.ofContent content) [] [] []),
        pm, w1.remove tempUserCredentials⟩

/-- A codec that stores the bytes as they are; used to run the methods on concrete inputs. -/
def plainCodec : Codec :=
  { encode := fun x => some x, decode := fun y => some y }

/-- The text that the loop of lines 215-217 writes for a record list: for each record, in
order, the service name, a space, the payload and a newline. -/
def serializeCredentials : List (Str × Str) → Str
  | [] => []
  | entry :: rest =>
    entry.1 ++ " ".toList ++ entry.2 ++ "\n".toList ++ serializeCredentials rest

/-- A call of one of the two mutating methods, with its arguments. -/
inductive Call where
  | add (serviceName serviceUsername password : Str)
  | delete (serviceName : Str)

/-- Runs one call. -/
def Call.run (pm : PasswordManager) (w : World) : Call → Step Unit
  | .add serviceName serviceUsername password =>
    addNewPassword pm w serviceName serviceUsername password
  | .delete serviceName => deletePassword pm w serviceName

/-- Runs the calls in order, each on the state the previous one left, and stops at the
first call that throws. -/
def runCalls : PasswordManager → World → List Call → Step Unit
  | pm, w, [] => ⟨.returned (), pm, w⟩
  | pm, w, call :: rest =>
    match (call.run pm w).result with
    | .returned _ => runCalls (call.run pm w).self (call.run pm w).world rest
    | .threw e => ⟨.threw e, (call.run pm w).self, (call.run pm w).world⟩

/-- No white space in a string. -/
def noSpace (s : Str) : Bool :=
  s.all (fun c => !isspace c)

/-- The arguments of a call that the file format can carry: a service name that is not
empty, and no white space in the service name, the username or the password. -/
def Call.plain : Call → Bool
  | .add serviceName serviceUsername password =>
    !serviceName.isEmpty && noSpace serviceName && noSpace serviceUsername && noSpace password
  | .delete _ => true

/-- A record that the file format can carry: both fields are non-empty words. -/
def plainRecord (entry : Str × Str) : Bool :=
  !entry.1.isEmpty && noSpace entry.1 && !entry.2.isEmpty && noSpace entry.2

/-- The state after add("my service", "alice", "Sup3rSecret!") on the empty store of alice. -/
def spaceInName : Step Unit :=
  addNewPassword
    { credentials := [], username := "alice".toList, mainPassword := [], encryptionKey := [] }
    { files := fun _ => none, canRead := fun _ => true, canWrite := fun _ => true, cout := [] }
    "my service".toList "alice".toList "Sup3rSecret!".toList

/-- Three calls with plain arguments: two adds and the delete of the first service. -/
def plainCalls : List Call :=
  [.add "github".toList "alice".toList "Sup3rSecret!".toList,
   .add "gitlab".toList "bob".toList "password123".toList,
   .delete "github".toList]

/-- Neither of the two characters that structure the master file, ',' and the newline,
occurs in a string. -/
def noSeparator (s : Str) : Bool :=
  s.all (fun c => decide (c ≠ ',') && decide (c ≠ '\n'))

/-- The object of the owner alice whose master password holds a comma. -/
def commaPassword : PasswordManager :=
  { credentials := [], username := "alice".toList, mainPassword := "hunter2,pass".toList,
    encryptionKey := [] }

/-- The object of the owner alice whose master password is the text before that comma. -/
def beforeComma : PasswordManager :=
  { credentials := [], username := "alice".toList, mainPassword := "hunter2".toList,
    encryptionKey := [] }

/-- An empty store of an owner, and a world with no files in which every path can be
opened; used to run the methods on concrete inputs. -/
def emptyStore (owner master : Str) : PasswordManager :=
  { credentials := [], username := owner, mainPassword := master, encryptionKey := [] }

/-- A world without files, where every path can be read and written. -/
def emptyWorld : World :=
  { files := fun _ => none, canRead := fun _ => true, canWrite := fun _ => true, cout := [] }

/-- The state after two adds of the service github on the empty store of alice. -/
def addedTwice : Step Unit :=
  addNewPassword
    (addNewPassword (emptyStore "alice".toList []) emptyWorld
      "github".toList "alice".toList "Sup3rSecret!".toList).self
    (addNewPassword (emptyStore "alice".toList []) emptyWorld
      "github".toList "alice".toList "Sup3rSecret!".toList).world
    "github".toList "bob".toList "password123".toList

/-- A world without files in which no path can be opened for writing. -/
def readOnlyWorld : World :=
  { files := fun _ => none, canRead := fun _ => true, canWrite := fun _ => false, cout := [] }

/-- A codec whose compress and decompress always report failure. -/
def failingCodec : Codec :=
  { encode := fun _ => none, decode := fun _ => none }

/-- A decompressed master file of two lines: the pair of bob, and a line that holds only
the name alice. -/
def staleContent : Str := "bob,secret\nalice\n".toList

/-- A world whose master file holds `staleContent` (stored as it is), and nothing else. -/
def staleWorld : World :=
  { files := fun q => if q = compressedFile then some staleContent else none,
    canRead := fun _ => true, canWrite := fun _ => true, cout := [] }

/-- Follows the words of the specification, not the code: the lines of a text, split at
every newline; `cur` is the line being collected. -/
def specLines : Str → Str → List Str
  | [], cur => [cur]
  | c :: rest, cur => if c = '\n' then cur :: specLines rest [] else specLines rest (cur ++ [c])

/-- Follows the words of the specification, not the code: the two fields of a line, the
text before its first ',' and the text between its first ',' and its second ',' (or the
end of the line). -/
def specFields (line : Str) : Str × Str :=
  (line.takeWhile (fun c => decide (c ≠ ',')),
   ((line.dropWhile (fun c => decide (c ≠ ','))).drop 1).takeWhile (fun c => decide (c ≠ ',')))

/-- Follows the words of the specification, not the code: some line of the text has the
username as its first field and the password as its second. -/
def specScan (username mainPassword content : Str) : Bool :=
  (specLines content []).any
    (fun line => decide ((specFields line).1 = username ∧ (specFields line).2 = mainPassword))

/-- The value of `std::string::npos`: the largest `size_t`, 64 bits wide. -/
def npos : Nat := 2 ^ 64 - 1

/-- The search behind `s.find(c)`: the position of the first `c` in what is left of the
string, where `i` is the position of its first character; `npos` when there is none. -/
def findFrom (c : Char) : Str → Nat → Nat
  | [], _ => npos
  | x :: rest, i => if x = c then i else findFrom c rest (i + 1)

/-- The value of `s.find(c)`. -/
def find (s : Str) (c : Char) : Nat :=
  findFrom c s 0

/-- The value of `s.substr(pos, count)` for `pos <= s.size()`: at most `count` characters
from position `pos` on.  (`substr` throws for `pos > s.size()`; `showAllPasswords` calls it
with position 0 and with the position after a found ':', or 0 when there is none.) -/
def substr (s : Str) (pos count : Nat) : Str :=
  (s.drop pos).take count

/-- The text written by `std::cout << std::setw(width) << s` when `std::left` is set and
the fill character is the space: `s`, padded with spaces on the right up to `width`. -/
def setw_left (width : Nat) (s : Str) : Str :=
  s ++ List.replicate (width - s.length) ' '

/-- Lines 76-79: the two header lines, the first with `std::left` and `std::setw(20)` on
the first two columns. -/
def showHeader : Str :=
  setw_left 20 "Service".toList ++ setw_left 20 "Username".toList ++ "Password".toList
    ++ "\n".toList ++ "-----------------------------------------------".toList ++ "\n".toList

/-- Lines 82-91, the body of the loop: the row printed for one entry.  The payload is cut
at `find(':')`: `substr(0, delimiter_pos)` and `substr(delimiter_pos + 1)`, the sum taken
in `size_t`. -/
def showRow (entry : Str × Str) : Str :=
  let service := entry.1
  let username_password := entry.2
  let delimiter_pos := find username_password ':'
  let username := substr username_password 0 delimiter_pos
  let password := substr username_password ((delimiter_pos + 1) % 2 ^ 64) npos
  setw_left 20 service ++ setw_left 20 username ++ password ++ "\n".toList

/-- Lines 70-93, `showAllPasswords`: prints one line when the vector is empty; otherwise
the header and one row per entry in order. -/
def showAllPasswords (pm : PasswordManager) (w : World) : Step Unit :=
  if pm.credentials.isEmpty then
    ⟨.returned (), pm, w.print ("No passwords stored.".toList ++ "\n".toList)⟩
  else
    ⟨.returned (), pm,
      pm.credentials.foldl (fun out entry => out.print (showRow entry)) (w.print showHeader)⟩

/-- A store of alice that holds one record. -/
def staleStore : PasswordManager :=
  { credentials := [("stale".toList, "x:password0".toList)], username := "alice".toList,
    mainPassword := [], encryptionKey := [] }

/-! ## Theorems -/

theorem saveCredentialsToFile_result (pm : PasswordManager) (w : World) :
    (saveCredentialsToFile pm w).result =
      if w.canWrite (credentialsPath pm) then .returned () else .threw .credOpenWrite := by
  unfold saveCredentialsToFile World.ofstream_trunc
  split_ifs <;> rfl

theorem saveCredentialsToFile_self (pm : PasswordManager) (w : World) :
    (saveCredentialsToFile pm w).self = pm := by
  unfold saveCredentialsToFile
  split <;> rfl

/-- C1: a password of at most 8 characters makes `addNewPassword` throw the weak-password
exception with the object and the world (so the record list and every file) exactly as
they were; a password of more than 8 characters, when the owner's file can be opened for
writing, makes it return normally. -/
theorem addNewPassword_length_gate (pm : PasswordManager) (w : World) (s u p : Str) :
    (p.length ≤ 8 → addNewPassword pm w s u p = ⟨.threw .weakPassword, pm, w⟩) ∧
    (8 < p.length → w.canWrite (credentialsPath pm) = true →
      (addNewPassword pm w s u p).result = .returned ()) := by
  constructor
  · intro h
    have hv : validate pm p = false := by simp [validate]; omega
    simp [addNewPassword, hv]
  · intro h hw
    have hv : validate pm p = true := by simp [validate]; omega
    simp only [addNewPassword, hv, Bool.not_true, Bool.false_eq_true, if_false]
    rw [saveCredentialsToFile_result]
    simp [credentialsPath, encrypt, World.print] at hw ⊢
    exact hw

/-- C1 on concrete passwords: 8 characters are rejected and nothing changes, 9 are accepted. -/
theorem addNewPassword_length_gate_witness :
    addNewPassword (emptyStore "alice".toList []) emptyWorld "github".toList "alice".toList
        "12345678".toList
      = ⟨.threw .weakPassword, emptyStore "alice".toList [], emptyWorld⟩ ∧
    (addNewPassword (emptyStore "alice".toList []) emptyWorld "github".toList "alice".toList
        "123456789".toList).result = .returned () :=
  ⟨(addNewPassword_length_gate _ _ _ _ _).1 (by decide),
   (addNewPassword_length_gate _ _ _ _ _).2 (by decide) rfl⟩

/-- C2: when `addNewPassword` returns normally the record list is the old list followed by
the one record `(serviceName, username + ":" + password)`. -/
theorem addNewPassword_appends (pm : PasswordManager) (w : World) (s u p : Str)
    (hok : (addNewPassword pm w s u p).result = .returned ()) :
    (addNewPassword pm w s u p).self.credentials
      = pm.credentials ++ [(s, u ++ ":".toList ++ p)] := by
  unfold addNewPassword at hok ⊢
  by_cases hv : validate pm p = true
  · simp only [hv, Bool.not_true, Bool.false_eq_true, if_false, saveCredentialsToFile_self]
  · simp [hv] at hok

/-- C2 on the empty store of alice: the list afterwards is the single github record. -/
theorem addNewPassword_appends_witness :
    (addNewPassword (emptyStore "alice".toList []) emptyWorld "github".toList "alice".toList
        "Sup3rSecret!".toList).self.credentials
      = [] ++ [("github".toList, "alice".toList ++ ":".toList ++ "Sup3rSecret!".toList)] :=
  addNewPassword_appends (emptyStore "alice".toList []) emptyWorld _ _ _ rfl

theorem remove_if_length_eq_iff (serviceName : Str) (l : List (Str × Str)) :
    (remove_if (fun entry : Str × Str => decide (entry.1 = serviceName)) l).length = l.length
      ↔ ∀ e ∈ l, e.1 ≠ serviceName := by
  unfold remove_if
  induction l with
  | nil => simp
  | cons a t ih =>
    by_cases ha : a.1 = serviceName
    · have hle := List.length_filter_le
        (fun entry : Str × Str => !decide (entry.1 = serviceName)) t
      simp [List.filter_cons, ha]
      omega
    · simp [List.filter_cons, ha, ih]

/-- C3: when no record carries `serviceName`, `deletePassword` throws the service-not-found
exception and leaves the object and the world (so the record list and every file) exactly
as they were; and it throws that exception only when no record carries `serviceName`. -/
theorem deletePassword_not_found (pm : PasswordManager) (w : World) (s : Str) :
    ((∀ e ∈ pm.credentials, e.1 ≠ s) →
      deletePassword pm w s = ⟨.threw .serviceNotFound, pm, w⟩) ∧
    ((deletePassword pm w s).result = .threw .serviceNotFound →
      ∀ e ∈ pm.credentials, e.1 ≠ s) := by
  constructor
  · intro h
    have hl := (remove_if_length_eq_iff s pm.credentials).2 h
    simp [deletePassword, hl]
  · intro h
    by_contra hne
    have hl : (remove_if (fun entry : Str × Str => decide (entry.1 = s)) pm.credentials).length
        ≠ pm.credentials.length := fun hl => hne ((remove_if_length_eq_iff s pm.credentials).1 hl)
    simp only [deletePassword, hl, ne_eq, not_false_eq_true, if_true] at h
    rw [saveCredentialsToFile_result] at h
    split_ifs at h
    cases h

/-- C3 on a store holding one github record: deleting gitlab throws and changes nothing. -/
theorem deletePassword_not_found_witness :
    deletePassword
        { emptyStore "alice".toList [] with
          credentials := [("github".toList, "alice:Sup3rSecret!".toList)] }
        emptyWorld "gitlab".toList
      = ⟨.threw .serviceNotFound,
          { emptyStore "alice".toList [] with
            credentials := [("github".toList, "alice:Sup3rSecret!".toList)] },
          emptyWorld⟩ :=
  (deletePassword_not_found _ _ _).1 (by decide)

/-- C4: when some record carries `serviceName` and `deletePassword` returns normally, the
record list afterwards is the old list filtered by "service name differs". -/
theorem deletePassword_removes_all (pm : PasswordManager) (w : World) (s : Str)
    (_hex : ∃ e ∈ pm.credentials, e.1 = s)
    (hok : (deletePassword pm w s).result = .returned ()) :
    (deletePassword pm w s).self.credentials
      = pm.credentials.filter (fun e => decide (e.1 ≠ s)) := by
  unfold deletePassword at hok ⊢
  by_cases hl : (remove_if (fun entry : Str × Str => decide (entry.1 = s)) pm.credentials).length
      = pm.credentials.length
  · simp [hl] at hok
  · simp only [hl, ne_eq, not_false_eq_true, if_true, saveCredentialsToFile_self]
    simp [remove_if]

/-- C4 on a store with two github records around a gitlab one: both are removed. -/
theorem deletePassword_removes_all_witness :
    (deletePassword
        { emptyStore "alice".toList [] with
          credentials := [("github".toList, "a:password1".toList),
            ("gitlab".toList, "b:password2".toList), ("github".toList, "c:password3".toList)] }
        emptyWorld "github".toList).self.credentials
      = [("github".toList, "a:password1".toList),
          ("gitlab".toList, "b:password2".toList),
          ("github".toList, "c:password3".toList)].filter
            (fun e => decide (e.1 ≠ "github".toList)) :=
  deletePassword_removes_all _ emptyWorld _
    ⟨("github".toList, "a:password1".toList), List.mem_cons_self _ _, rfl⟩ rfl

theorem getCredentialLoop_eq_none (s : Str) (l : List (Str × Str)) :
    getCredentialLoop s l = none ↔ ∀ e ∈ l, e.1 ≠ s := by
  induction l with
  | nil => simp [getCredentialLoop]
  | cons a t ih =>
    by_cases ha : a.1 = s
    · simp [getCredentialLoop, ha]
    · simp [getCredentialLoop, ha, ih]

theorem getCredentialLoop_first (s : Str) (l : List (Str × Str)) (i : Nat) (payload : Str)
    (hi : l[i]? = some (s, payload))
    (hfirst : ∀ j, j < i → ∀ e, l[j]? = some e → e.1 ≠ s) :
    getCredentialLoop s l = some payload := by
  induction l generalizing i with
  | nil => simp at hi
  | cons a t ih =>
    cases i with
    | zero =>
      simp at hi
      simp [getCredentialLoop, hi]
    | succ k =>
      have ha : a.1 ≠ s := hfirst 0 (Nat.succ_pos k) a (by simp)
      simp only [getCredentialLoop, ha, if_false]
      apply ih k (by simpa using hi)
      intro j hj e he
      exact hfirst (j + 1) (Nat.succ_lt_succ hj) e (by simpa using he)

/-- C5: `getCredential` is a total function of the object (it cannot throw and has no
state to change); when position `i` holds a record named `serviceName` and no earlier
position does, it returns the payload at position `i`; and it returns nullopt exactly when
no record carries `serviceName`. -/
theorem getCredential_first_match (pm : PasswordManager) (s : Str) :
    (∀ (i : Nat) (payload : Str), pm.credentials[i]? = some (s, payload) →
      (∀ j, j < i → ∀ e, pm.credentials[j]? = some e → e.1 ≠ s) →
      getCredential pm s = some payload) ∧
    (getCredential pm s = none ↔ ∀ e ∈ pm.credentials, e.1 ≠ s) :=
  ⟨fun i payload hi hfirst => getCredentialLoop_first s pm.credentials i payload hi hfirst,
   getCredentialLoop_eq_none s pm.credentials⟩

/-- C5 on a store with a gitlab record followed by two github records: the lookup of github
returns the payload at position 1, not the one at position 2. -/
theorem getCredential_first_match_witness :
    getCredential
        { emptyStore "alice".toList [] with
          credentials := [("gitlab".toList, "b:password2".toList),
            ("github".toList, "a:password1".toList), ("github".toList, "c:password3".toList)] }
        "github".toList
      = some "a:password1".toList :=
  (getCredential_first_match _ _).1 1 _ rfl (by
    intro j hj e he
    have hj0 : j = 0 := by omega
    subst hj0
    simp at he
    subst he
    decide)

theorem hasPassword_iff_exists (pm : PasswordManager) (s : Str) :
    hasPassword pm s = true ↔ ∃ e ∈ pm.credentials, e.1 = s := by
  unfold hasPassword
  rw [List.any_eq_true]
  constructor
  · rintro ⟨e, he, h⟩
    exact ⟨e, he, of_decide_eq_true h⟩
  · rintro ⟨e, he, h⟩
    exact ⟨e, he, decide_eq_true h⟩

/-- C6: `hasPassword` is true exactly when `getCredential` returns a value, and exactly
when some record carries `serviceName`. -/
theorem hasPassword_iff_getCredential (pm : PasswordManager) (s : Str) :
    (hasPassword pm s = true ↔ (getCredential pm s).isSome = true) ∧
    (hasPassword pm s = true ↔ ∃ e ∈ pm.credentials, e.1 = s) := by
  have h2 := hasPassword_iff_exists pm s
  refine ⟨?_, h2⟩
  rw [h2]
  have hn := getCredentialLoop_eq_none s pm.credentials
  unfold getCredential
  cases hg : getCredentialLoop s pm.credentials with
  | none =>
    have hall := hn.1 hg
    constructor
    · rintro ⟨e, he, h⟩
      exact absurd h (hall e he)
    · intro h
      simp at h
  | some v =>
    constructor
    · intro _
      rfl
    · intro _
      by_contra hcon
      push_neg at hcon
      have hnone := hn.2 hcon
      rw [hg] at hnone
      cases hnone

/-! ### What the mutating methods leave behind -/

theorem foldl_write_files (path : Str) (l : List (Str × Str)) :
    ∀ (w1 : World) (c : Str), w1.files path = some c →
      (l.foldl (fun file entry =>
          file.write path (entry.1 ++ " ".toList ++ entry.2 ++ "\n".toList)) w1).files
        = fun q => if q = path then some (c ++ serializeCredentials l) else w1.files q := by
  induction l with
  | nil =>
    intro w1 c hc
    funext q
    by_cases hq : q = path
    · simp [serializeCredentials, hq, hc]
    · simp [hq]
  | cons a t ih =>
    intro w1 c hc
    rw [List.foldl_cons]
    rw [ih (w1.write path (a.1 ++ " ".toList ++ a.2 ++ "\n".toList))
      (c ++ (a.1 ++ " ".toList ++ a.2 ++ "\n".toList)) (by simp [World.write, hc])]
    funext q
    by_cases hq : q = path
    · simp [serializeCredentials, hq, List.append_assoc]
    · simp [World.write, hq]

theorem foldl_write_perms (path : Str) (l : List (Str × Str)) :
    ∀ (w1 : World),
      (l.foldl (fun file entry =>
          file.write path (entry.1 ++ " ".toList ++ entry.2 ++ "\n".toList)) w1).canRead
        = w1.canRead ∧
      (l.foldl (fun file entry =>
          file.write path (entry.1 ++ " ".toList ++ entry.2 ++ "\n".toList)) w1).canWrite
        = w1.canWrite := by
  induction l with
  | nil => intro w1; exact ⟨rfl, rfl⟩
  | cons a t ih =>
    intro w1
    rw [List.foldl_cons]
    exact ih _

theorem saveCredentialsToFile_canRead (pm : PasswordManager) (w : World) :
    (saveCredentialsToFile pm w).world.canRead = w.canRead := by
  unfold saveCredentialsToFile World.ofstream_trunc
  split_ifs
  · exact (foldl_write_perms _ _ _).1
  · rfl

theorem saveCredentialsToFile_canWrite (pm : PasswordManager) (w : World) :
    (saveCredentialsToFile pm w).world.canWrite = w.canWrite := by
  unfold saveCredentialsToFile World.ofstream_trunc
  split_ifs
  · exact (foldl_write_perms _ _ _).2
  · rfl

theorem saveCredentialsToFile_file (pm : PasswordManager) (w : World)
    (hw : w.canWrite (credentialsPath pm) = true) :
    (saveCredentialsToFile pm w).world.files (credentialsPath pm)
      = some (serializeCredentials pm.credentials) := by
  unfold saveCredentialsToFile World.ofstream_trunc
  simp only [hw, if_true]
  rw [foldl_write_files (credentialsPath pm) pm.credentials _ [] (by simp)]
  simp

theorem addNewPassword_self (pm : PasswordManager) (w : World) (s u p : Str)
    (hp : 8 < p.length) :
    (addNewPassword pm w s u p).self
      = { pm with credentials := pm.credentials ++ [(s, u ++ ":".toList ++ p)] } := by
  have hv : validate pm p = true := by simp [validate]; omega
  simp only [addNewPassword, hv, Bool.not_true, Bool.false_eq_true, if_false,
    saveCredentialsToFile_self]

theorem addNewPassword_result (pm : PasswordManager) (w : World) (s u p : Str)
    (hp : 8 < p.length) :
    (addNewPassword pm w s u p).result
      = if w.canWrite (credentialsPath pm) then .returned () else .threw .credOpenWrite := by
  have hv : validate pm p = true := by simp [validate]; omega
  simp only [addNewPassword, hv, Bool.not_true, Bool.false_eq_true, if_false,
    saveCredentialsToFile_result]
  rfl

theorem addNewPassword_canWrite (pm : PasswordManager) (w : World) (s u p : Str) :
    (addNewPassword pm w s u p).world.canWrite = w.canWrite := by
  unfold addNewPassword
  split_ifs
  · rfl
  · simp only [saveCredentialsToFile_canWrite]
    rfl

theorem addNewPassword_username (pm : PasswordManager) (w : World) (s u p : Str) :
    (addNewPassword pm w s u p).self.username = pm.username := by
  unfold addNewPassword
  split_ifs
  · rfl
  · simp only [saveCredentialsToFile_self]

theorem deletePassword_self_credentials (pm : PasswordManager) (w : World) (s : Str) :
    (deletePassword pm w s).self.credentials
      = pm.credentials.filter (fun e => decide (e.1 ≠ s)) := by
  unfold deletePassword
  by_cases hl : (remove_if (fun entry : Str × Str => decide (entry.1 = s)) pm.credentials).length
      = pm.credentials.length
  · have hall := (remove_if_length_eq_iff s pm.credentials).1 hl
    simp only [hl, ne_eq, not_true_eq_false, if_false]
    symm
    rw [List.filter_eq_self]
    intro e he
    exact decide_eq_true (hall e he)
  · simp only [hl, ne_eq, not_false_eq_true, if_true, saveCredentialsToFile_self]
    simp [remove_if]

theorem deletePassword_username (pm : PasswordManager) (w : World) (s : Str) :
    (deletePassword pm w s).self.username = pm.username := by
  unfold deletePassword
  simp only []
  split_ifs
  · simp only [saveCredentialsToFile_self]
  · rfl

theorem deletePassword_result_of_mem (pm : PasswordManager) (w : World) (s : Str)
    (hex : ∃ e ∈ pm.credentials, e.1 = s) :
    (deletePassword pm w s).result
      = if w.canWrite (credentialsPath pm) then .returned () else .threw .credOpenWrite := by
  have hl : (remove_if (fun entry : Str × Str => decide (entry.1 = s)) pm.credentials).length
      ≠ pm.credentials.length := by
    intro hl
    obtain ⟨e, he, hes⟩ := hex
    exact (remove_if_length_eq_iff s pm.credentials).1 hl e he hes
  simp only [deletePassword, hl, ne_eq, not_false_eq_true, if_true, saveCredentialsToFile_result]
  rfl

theorem getCredentialLoop_append_fresh (s payload : Str) (l : List (Str × Str))
    (hfresh : ∀ e ∈ l, e.1 ≠ s) :
    getCredentialLoop s (l ++ [(s, payload)]) = some payload := by
  induction l with
  | nil => simp [getCredentialLoop]
  | cons a t ih =>
    have ha : a.1 ≠ s := hfresh a (List.mem_cons_self _ _)
    simp only [List.cons_append, getCredentialLoop, ha, if_false]
    exact ih (fun e he => hfresh e (List.mem_cons_of_mem _ he))

theorem filter_append_fresh (s payload : Str) (l : List (Str × Str))
    (hfresh : ∀ e ∈ l, e.1 ≠ s) :
    (l ++ [(s, payload)]).filter (fun e => decide (e.1 ≠ s)) = l := by
  rw [List.filter_append]
  have h1 : l.filter (fun e => decide (e.1 ≠ s)) = l := by
    rw [List.filter_eq_self]
    intro e he
    exact decide_eq_true (hfresh e he)
  rw [h1]
  simp

/-- C7: on a store with no record named `s`, for every username and every password longer
than 8 characters: after `addNewPassword(s, u, p)` the lookup of `s` returns `u + ":" + p`
and `hasPassword(s)` is true; after a following `deletePassword(s)`, `hasPassword(s)` is
false, the lookup is absent and the record list is the one before the add; and both calls
return normally when the owner's file can be opened for writing. -/
theorem add_then_delete_undoes (pm : PasswordManager) (w : World) (s u p : Str)
    (hfresh : ∀ e ∈ pm.credentials, e.1 ≠ s) (hp : 8 < p.length) :
    getCredential (addNewPassword pm w s u p).self s = some (u ++ ":".toList ++ p) ∧
    hasPassword (addNewPassword pm w s u p).self s = true ∧
    hasPassword
      (deletePassword (addNewPassword pm w s u p).self (addNewPassword pm w s u p).world s).self s
      = false ∧
    getCredential
      (deletePassword (addNewPassword pm w s u p).self (addNewPassword pm w s u p).world s).self s
      = none ∧
    (deletePassword (addNewPassword pm w s u p).self (addNewPassword pm w s u p).world s).self.credentials
      = pm.credentials ∧
    (w.canWrite (credentialsPath pm) = true →
      (addNewPassword pm w s u p).result = .returned () ∧
      (deletePassword (addNewPassword pm w s u p).self (addNewPassword pm w s u p).world s).result
        = .returned ()) := by
  have hself := addNewPassword_self pm w s u p hp
  have hcred : (addNewPassword pm w s u p).self.credentials
      = pm.credentials ++ [(s, u ++ ":".toList ++ p)] := by rw [hself]
  have hmem : ∃ e ∈ (addNewPassword pm w s u p).self.credentials, e.1 = s :=
    ⟨(s, u ++ ":".toList ++ p), by rw [hcred]; simp, rfl⟩
  have hdel : (deletePassword (addNewPassword pm w s u p).self
      (addNewPassword pm w s u p).world s).self.credentials = pm.credentials := by
    rw [deletePassword_self_credentials, hcred]
    exact filter_append_fresh s _ pm.credentials hfresh
  refine ⟨?_, ?_, ?_, ?_, hdel, ?_⟩
  · unfold getCredential
    rw [hcred]
    exact getCredentialLoop_append_fresh s _ pm.credentials hfresh
  · exact (hasPassword_iff_exists _ s).2 hmem
  · cases hh : hasPassword (deletePassword (addNewPassword pm w s u p).self
        (addNewPassword pm w s u p).world s).self s with
    | false => rfl
    | true =>
      obtain ⟨e, he, hes⟩ := (hasPassword_iff_exists _ s).1 hh
      rw [hdel] at he
      exact absurd hes (hfresh e he)
  · unfold getCredential
    rw [hdel]
    exact (getCredentialLoop_eq_none s pm.credentials).2 hfresh
  · intro hw
    constructor
    · rw [addNewPassword_result pm w s u p hp, if_pos hw]
    · rw [deletePassword_result_of_mem _ _ s hmem, addNewPassword_canWrite]
      have hpath : credentialsPath (addNewPassword pm w s u p).self = credentialsPath pm := by
        unfold credentialsPath
        rw [addNewPassword_username]
      rw [hpath, if_pos hw]

/-- C7 on the scenario of the specification: add("github","alice","Sup3rSecret!") on the
empty store, then delete("github"). -/
theorem add_then_delete_undoes_witness :
    getCredential
      (addNewPassword (emptyStore "alice".toList []) emptyWorld "github".toList "alice".toList
        "Sup3rSecret!".toList).self "github".toList
      = some "alice:Sup3rSecret!".toList ∧
    hasPassword
      (addNewPassword (emptyStore "alice".toList []) emptyWorld "github".toList "alice".toList
        "Sup3rSecret!".toList).self "github".toList = true ∧
    hasPassword
      (deletePassword
        (addNewPassword (emptyStore "alice".toList []) emptyWorld "github".toList "alice".toList
          "Sup3rSecret!".toList).self
        (addNewPassword (emptyStore "alice".toList []) emptyWorld "github".toList "alice".toList
          "Sup3rSecret!".toList).world "github".toList).self "github".toList = false :=
  have h := add_then_delete_undoes (emptyStore "alice".toList []) emptyWorld "github".toList
    "alice".toList "Sup3rSecret!".toList (by intro e he; cases he) (by decide)
  ⟨h.1, h.2.1, h.2.2.1⟩

/-! ### Reading back the owner's file -/

theorem dropWhile_isspace_append (pre rest : Str) (hpre : ∀ c ∈ pre, isspace c = true) :
    (pre ++ rest).dropWhile isspace = rest.dropWhile isspace := by
  induction pre with
  | nil => rfl
  | cons a t ih =>
    have ha : isspace a = true := hpre a (List.mem_cons_self _ _)
    simp only [List.cons_append, List.dropWhile_cons, ha, if_true]
    exact ih (fun c hc => hpre c (List.mem_cons_of_mem _ hc))

theorem dropWhile_isspace_word (word rest : Str) (hne : word ≠ [])
    (hword : ∀ c ∈ word, isspace c = false) :
    (word ++ rest).dropWhile isspace = word ++ rest := by
  cases word with
  | nil => exact absurd rfl hne
  | cons a t =>
    have ha : isspace a = false := hword a (List.mem_cons_self _ _)
    simp [List.dropWhile_cons, ha]

theorem takeWhile_word (word rest : Str) (c : Char)
    (hword : ∀ x ∈ word, isspace x = false) (hc : isspace c = true) :
    (word ++ c :: rest).takeWhile (fun x => !isspace x) = word := by
  induction word with
  | nil => simp [List.takeWhile_cons, hc]
  | cons a t ih =>
    have ha : isspace a = false := hword a (List.mem_cons_self _ _)
    simp only [List.cons_append, List.takeWhile_cons, ha, Bool.not_false, if_true]
    rw [ih (fun x hx => hword x (List.mem_cons_of_mem _ hx))]

theorem dropWhile_word (word rest : Str) (c : Char)
    (hword : ∀ x ∈ word, isspace x = false) (hc : isspace c = true) :
    (word ++ c :: rest).dropWhile (fun x => !isspace x) = c :: rest := by
  induction word with
  | nil => simp [List.dropWhile_cons, hc]
  | cons a t ih =>
    have ha : isspace a = false := hword a (List.mem_cons_self _ _)
    simp only [List.cons_append, List.dropWhile_cons, ha, Bool.not_false, if_true]
    exact ih (fun x hx => hword x (List.mem_cons_of_mem _ hx))

/-- Reading a word that is followed by white space: white space before it is skipped, the
stream stays good and stands at the white space after the word. -/
theorem extractWord_word (pre word rest str : Str) (c : Char)
    (hpre : ∀ x ∈ pre, isspace x = true) (hne : word ≠ [])
    (hword : ∀ x ∈ word, isspace x = false) (hc : isspace c = true) :
    extractWord { buf := pre ++ (word ++ c :: rest), eofbit := false, failbit := false } str
      = ({ buf := c :: rest, eofbit := false, failbit := false }, word) := by
  have h1 : (pre ++ (word ++ c :: rest)).dropWhile isspace = word ++ c :: rest := by
    rw [dropWhile_isspace_append pre _ hpre, dropWhile_isspace_word word _ hne hword]
  have h2 : word ++ c :: rest ≠ [] := by
    cases word with
    | nil => exact absurd rfl hne
    | cons a t => simp
  simp only [extractWord, IStream.good, Bool.not_false, Bool.and_self, Bool.not_true,
    Bool.false_eq_true, if_false, h1, h2, takeWhile_word word rest c hword hc,
    dropWhile_word word rest c hword hc]
  simp

/-- Reading a word where only white space is left: the stream fails. -/
theorem extractWord_at_end (pre str : Str) (hpre : ∀ x ∈ pre, isspace x = true) :
    extractWord { buf := pre, eofbit := false, failbit := false } str
      = ({ buf := [], eofbit := true, failbit := true }, str) := by
  have h1 : pre.dropWhile isspace = [] := by
    have := dropWhile_isspace_append pre [] hpre
    simpa using this
  simp [extractWord, IStream.good, h1]

theorem plainRecord_iff (entry : Str × Str) :
    plainRecord entry = true ↔
      (entry.1 ≠ [] ∧ ∀ c ∈ entry.1, isspace c = false) ∧
      (entry.2 ≠ [] ∧ ∀ c ∈ entry.2, isspace c = false) := by
  unfold plainRecord noSpace
  simp only [Bool.and_eq_true, Bool.not_eq_true', List.isEmpty_eq_false, List.all_eq_true,
    Bool.not_eq_true', and_assoc]

/-- The loop of `loadCredentialsFromFile` on the text written for a list of plain records,
possibly after some white space: it appends exactly those records, given one round more
than there are records. -/
theorem readCredentials_serialize (l : List (Str × Str))
    (hl : ∀ e ∈ l, plainRecord e = true) :
    ∀ (fuel : Nat) (pre a b : Str) (acc : List (Str × Str)),
      l.length < fuel → (∀ x ∈ pre, isspace x = true) →
      readCredentials fuel
          { buf := pre ++ serializeCredentials l, eofbit := false, failbit := false } a b acc
        = acc ++ l := by
  induction l with
  | nil =>
    intro fuel pre a b acc hfuel hpre
    cases fuel with
    | zero => simp at hfuel
    | succ n =>
      simp only [serializeCredentials, List.append_nil, readCredentials,
        extractWord_at_end pre a hpre]
      simp [extractWord, IStream.good]
  | cons e t ih =>
    intro fuel pre a b acc hfuel hpre
    cases fuel with
    | zero => simp at hfuel
    | succ n =>
      obtain ⟨⟨h1ne, h1⟩, h2ne, h2⟩ := (plainRecord_iff e).1 (hl e (List.mem_cons_self _ _))
      have hbuf : pre ++ serializeCredentials (e :: t)
          = pre ++ (e.1 ++ ' ' :: ([] ++ (e.2 ++ '\n' :: serializeCredentials t))) := by
        simp [serializeCredentials]
      have hread1 := extractWord_word pre e.1 ([] ++ (e.2 ++ '\n' :: serializeCredentials t)) a ' '
        hpre h1ne h1 (by decide)
      have hread2 := extractWord_word [' '] e.2 (serializeCredentials t) b '\n'
        (by intro x hx; simp at hx; subst hx; decide) h2ne h2 (by decide)
      have hrest := ih (fun x hx => hl x (List.mem_cons_of_mem _ hx)) n ['\n'] e.1 e.2
        (acc ++ [e]) (by simpa using hfuel) (by intro x hx; simp at hx; subst hx; decide)
      simp only [List.nil_append, List.singleton_append, List.cons_append] at hread1 hread2 hrest
      simp only [readCredentials, hbuf, List.nil_append, hread1, hread2, Bool.false_eq_true,
        if_false, hrest]
      simp

theorem serializeCredentials_length (l : List (Str × Str)) :
    l.length ≤ (serializeCredentials l).length := by
  induction l with
  | nil => simp
  | cons e t ih =>
    simp [serializeCredentials]
    omega

/-- Saving and then loading a list of plain records gives the list back. -/
theorem save_then_load (pm fresh : PasswordManager) (w : World)
    (hl : ∀ e ∈ pm.credentials, plainRecord e = true)
    (hw : w.canWrite (credentialsPath pm) = true)
    (hr : w.canRead (credentialsPath pm) = true)
    (howner : fresh.username = pm.username) :
    (saveCredentialsToFile pm w).result = .returned () ∧
    (loadCredentialsFromFile fresh (saveCredentialsToFile pm w).world).result = .returned () ∧
    (loadCredentialsFromFile fresh (saveCredentialsToFile pm w).world).self.credentials
      = pm.credentials := by
  have hpath : credentialsPath fresh = credentialsPath pm := by
    unfold credentialsPath
    rw [howner]
  have hopen : (saveCredentialsToFile pm w).world.ifstream (credentialsPath fresh)
      = some (serializeCredentials pm.credentials) := by
    unfold World.ifstream
    rw [hpath, saveCredentialsToFile_canRead, hr, if_pos rfl, saveCredentialsToFile_file pm w hw]
  have hread := readCredentials_serialize pm.credentials hl
    ((serializeCredentials pm.credentials).length + 1) [] [] [] []
    (Nat.lt_succ_of_le (serializeCredentials_length _)) (by intro x hx; cases hx)
  refine ⟨?_, ?_, ?_⟩
  · rw [saveCredentialsToFile_result, if_pos hw]
  · unfold loadCredentialsFromFile
    rw [hopen]
  · unfold loadCredentialsFromFile
    rw [hopen]
    simp only [IStream.ofContent]
    simpa using hread

theorem addNewPassword_plain (pm : PasswordManager) (w : World) (s u p : Str)
    (hargs : (Call.add s u p).plain = true)
    (hl : ∀ e ∈ pm.credentials, plainRecord e = true) :
    ∀ e ∈ (addNewPassword pm w s u p).self.credentials, plainRecord e = true := by
  unfold addNewPassword
  split_ifs
  · exact hl
  · simp only [saveCredentialsToFile_self]
    intro e he
    rcases List.mem_append.1 he with h | h
    · exact hl e h
    · have he2 : e = (s, u ++ ":".toList ++ p) := by simpa using h
      subst he2
      simp only [Call.plain, noSpace, Bool.and_eq_true, Bool.not_eq_true',
        List.isEmpty_eq_false, List.all_eq_true] at hargs
      obtain ⟨⟨⟨h1, h2⟩, h3⟩, h4⟩ := hargs
      refine (plainRecord_iff _).2 ⟨⟨?_, ?_⟩, ?_, ?_⟩
      · simpa using h1
      · intro c hc
        simpa using h2 c hc
      · simp
      · intro c hc
        simp only [List.mem_append] at hc
        rcases hc with (hc | hc) | hc
        · simpa using h3 c hc
        · have hcc : c = ':' := by simpa using hc
          subst hcc
          decide
        · simpa using h4 c hc

theorem deletePassword_plain (pm : PasswordManager) (w : World) (s : Str)
    (hl : ∀ e ∈ pm.credentials, plainRecord e = true) :
    ∀ e ∈ (deletePassword pm w s).self.credentials, plainRecord e = true := by
  rw [deletePassword_self_credentials]
  intro e he
  exact hl e (List.mem_of_mem_filter he)

/-- Calls with plain arguments keep every record plain and keep the owner. -/
theorem runCalls_plain (calls : List Call) :
    ∀ (pm : PasswordManager) (w : World),
      (∀ c ∈ calls, c.plain = true) → (∀ e ∈ pm.credentials, plainRecord e = true) →
      (∀ e ∈ (runCalls pm w calls).self.credentials, plainRecord e = true) ∧
      (runCalls pm w calls).self.username = pm.username ∧
      (runCalls pm w calls).world.canWrite = w.canWrite ∧
      (runCalls pm w calls).world.canRead = w.canRead := by
  induction calls with
  | nil =>
    intro pm w _ hl
    exact ⟨hl, rfl, rfl, rfl⟩
  | cons c t ih =>
    intro pm w hc hl
    have hstep : (∀ e ∈ (c.run pm w).self.credentials, plainRecord e = true) ∧
        (c.run pm w).self.username = pm.username ∧
        (c.run pm w).world.canWrite = w.canWrite ∧
        (c.run pm w).world.canRead = w.canRead := by
      cases c with
      | add s u p =>
        refine ⟨addNewPassword_plain pm w s u p (hc _ (List.mem_cons_self _ _)) hl,
          addNewPassword_username pm w s u p, addNewPassword_canWrite pm w s u p, ?_⟩
        simp only [Call.run, addNewPassword]
        split_ifs
        · rfl
        · rw [saveCredentialsToFile_canRead]
          rfl
      | delete s =>
        refine ⟨deletePassword_plain pm w s hl, deletePassword_username pm w s, ?_, ?_⟩
        · simp only [Call.run, deletePassword]
          split_ifs
          · rw [saveCredentialsToFile_canWrite]
          · rfl
        · simp only [Call.run, deletePassword]
          split_ifs
          · rw [saveCredentialsToFile_canRead]
          · rfl
    unfold runCalls
    cases hres : (c.run pm w).result with
    | threw e => exact hstep
    | returned v =>
      have hrest := ih (c.run pm w).self (c.run pm w).world
        (fun x hx => hc x (List.mem_cons_of_mem _ hx)) hstep.1
      simp only []
      refine ⟨hrest.1, ?_, ?_, ?_⟩
      · rw [hrest.2.1, hstep.2.1]
      · rw [hrest.2.2.1, hstep.2.2.1]
      · rw [hrest.2.2.2, hstep.2.2.2]

/-- C8, the claim as stated fails: after the successful add("my service", "alice",
"Sup3rSecret!") on the empty store of alice, saving succeeds, loading into a fresh store
of alice succeeds, and the loaded list is the single record ("my", "service"), not the
record that was saved. -/
theorem roundtrip_fails_on_space_in_name :
    spaceInName.result = .returned () ∧
    (saveCredentialsToFile spaceInName.self spaceInName.world).result = .returned () ∧
    (loadCredentialsFromFile (emptyStore "alice".toList [])
      (saveCredentialsToFile spaceInName.self spaceInName.world).world).result = .returned () ∧
    (loadCredentialsFromFile (emptyStore "alice".toList [])
      (saveCredentialsToFile spaceInName.self spaceInName.world).world).self.credentials
      = [("my".toList, "service".toList)] ∧
    (loadCredentialsFromFile (emptyStore "alice".toList [])
      (saveCredentialsToFile spaceInName.self spaceInName.world).world).self.credentials
      ≠ spaceInName.self.credentials := by
  decide

/-- C8, amended: for every record list reached from an empty store by calls of
`addNewPassword` and `deletePassword` that all return normally and whose arguments are
plain (a non-empty service name; no white space in service name, username or password),
when the owner's file can be opened for writing and for reading, `saveCredentialsToFile`
returns normally, `loadCredentialsFromFile` into a fresh store of the same owner returns
normally, and the loaded record list is identical to the saved one. -/
theorem roundtrip_after_plain_calls (pm0 fresh : PasswordManager) (w0 : World)
    (calls : List Call)
    (hempty : pm0.credentials = [])
    (hplain : ∀ c ∈ calls, c.plain = true)
    (_hrun : (runCalls pm0 w0 calls).result = .returned ())
    (hw : w0.canWrite (credentialsPath pm0) = true)
    (hr : w0.canRead (credentialsPath pm0) = true)
    (hfresh : fresh.credentials = [] ∧ fresh.username = pm0.username) :
    (saveCredentialsToFile (runCalls pm0 w0 calls).self (runCalls pm0 w0 calls).world).result
      = .returned () ∧
    (loadCredentialsFromFile fresh
      (saveCredentialsToFile (runCalls pm0 w0 calls).self
        (runCalls pm0 w0 calls).world).world).result = .returned () ∧
    (loadCredentialsFromFile fresh
      (saveCredentialsToFile (runCalls pm0 w0 calls).self
        (runCalls pm0 w0 calls).world).world).self.credentials
      = (runCalls pm0 w0 calls).self.credentials := by
  obtain ⟨hl, hu, hcw, hcr⟩ := runCalls_plain calls pm0 w0 hplain
    (by rw [hempty]; intro e he; cases he)
  have hpath : credentialsPath (runCalls pm0 w0 calls).self = credentialsPath pm0 := by
    unfold credentialsPath
    rw [hu]
  exact save_then_load (runCalls pm0 w0 calls).self fresh (runCalls pm0 w0 calls).world hl
    (by rw [hcw, hpath]; exact hw) (by rw [hcr, hpath]; exact hr) (by rw [hfresh.2, hu])

/-- C8 amended, on three calls with plain arguments from the empty store of alice. -/
theorem roundtrip_after_plain_calls_witness :
    (loadCredentialsFromFile (emptyStore "alice".toList [])
      (saveCredentialsToFile (runCalls (emptyStore "alice".toList []) emptyWorld plainCalls).self
        (runCalls (emptyStore "alice".toList []) emptyWorld plainCalls).world).world).self.credentials
      = (runCalls (emptyStore "alice".toList []) emptyWorld plainCalls).self.credentials :=
  (roundtrip_after_plain_calls (emptyStore "alice".toList []) (emptyStore "alice".toList [])
    emptyWorld plainCalls rfl (by decide) (by decide) rfl rfl ⟨rfl, rfl⟩).2.2

/-! ### The master file -/

theorem takeWhile_ne_delim (a rest : Str) (delim : Char) (ha : ∀ c ∈ a, c ≠ delim) :
    (a ++ delim :: rest).takeWhile (fun c => decide (c ≠ delim)) = a := by
  induction a with
  | nil => simp [List.takeWhile_cons]
  | cons x t ih =>
    have hx : decide (x ≠ delim) = true := decide_eq_true (ha x (List.mem_cons_self _ _))
    simp only [List.cons_append, List.takeWhile_cons, hx, if_true]
    rw [ih (fun c hc => ha c (List.mem_cons_of_mem _ hc))]

theorem dropWhile_ne_delim (a rest : Str) (delim : Char) (ha : ∀ c ∈ a, c ≠ delim) :
    (a ++ delim :: rest).dropWhile (fun c => decide (c ≠ delim)) = delim :: rest := by
  induction a with
  | nil => simp [List.dropWhile_cons]
  | cons x t ih =>
    have hx : decide (x ≠ delim) = true := decide_eq_true (ha x (List.mem_cons_self _ _))
    simp only [List.cons_append, List.dropWhile_cons, hx, if_true]
    exact ih (fun c hc => ha c (List.mem_cons_of_mem _ hc))

theorem takeWhile_no_delim (a : Str) (delim : Char) (ha : ∀ c ∈ a, c ≠ delim) :
    a.takeWhile (fun c => decide (c ≠ delim)) = a := by
  rw [List.takeWhile_eq_self_iff]
  intro c hc
  exact decide_eq_true (ha c hc)

theorem dropWhile_no_delim (a : Str) (delim : Char) (ha : ∀ c ∈ a, c ≠ delim) :
    a.dropWhile (fun c => decide (c ≠ delim)) = [] := by
  rw [List.dropWhile_eq_nil_iff]
  intro c hc
  exact decide_eq_true (ha c hc)

/-- Reading up to a delimiter that is there: the text before it is returned, the
delimiter is dropped and the stream stays good. -/
theorem getline_delim (a rest str : Str) (delim : Char) (ha : ∀ c ∈ a, c ≠ delim) :
    getline { buf := a ++ delim :: rest, eofbit := false, failbit := false } str delim
      = ({ buf := rest, eofbit := false, failbit := false }, a) := by
  simp only [getline, IStream.good, Bool.not_false, Bool.and_self, Bool.not_true,
    Bool.false_eq_true, if_false, takeWhile_ne_delim a rest delim ha,
    dropWhile_ne_delim a rest delim ha]

/-- Reading up to a delimiter that is not there: all the text is returned and eofbit is set. -/
theorem getline_no_delim (a str : Str) (delim : Char) (ha : ∀ c ∈ a, c ≠ delim) :
    getline { buf := a, eofbit := false, failbit := false } str delim
      = ({ buf := [], eofbit := true, failbit := decide (a = []) }, a) := by
  simp only [getline, IStream.good, Bool.not_false, Bool.and_self, Bool.not_true,
    Bool.false_eq_true, if_false, takeWhile_no_delim a delim ha,
    dropWhile_no_delim a delim ha]

theorem noSeparator_iff (s : Str) :
    noSeparator s = true ↔ (∀ c ∈ s, c ≠ ',') ∧ (∀ c ∈ s, c ≠ '\n') := by
  unfold noSeparator
  simp only [List.all_eq_true, Bool.and_eq_true, decide_eq_true_eq]
  constructor
  · intro h
    exact ⟨fun c hc => (h c hc).1, fun c hc => (h c hc).2⟩
  · intro h c hc
    exact ⟨h.1 c hc, h.2 c hc⟩

/-- The scan of the one line that `saveUserCredentialsToFile` writes for a pair without
separators: it answers whether the owner of the scanning object is exactly that pair. -/
theorem scanUserCredentials_saved_line (pm : PasswordManager) (u p : Str)
    (hu : noSeparator u = true) (hp : noSeparator p = true)
    (fuel : Nat) (line a b : Str) :
    scanUserCredentials pm (fuel + 2)
        (IStream.ofContent (u ++ ",".toList ++ p ++ "\n".toList)) line a b
      = decide (u = pm.username ∧ p = pm.mainPassword) := by
  obtain ⟨hu1, hu2⟩ := (noSeparator_iff u).1 hu
  obtain ⟨hp1, hp2⟩ := (noSeparator_iff p).1 hp
  have hline : ∀ c ∈ u ++ ',' :: p, c ≠ '\n' := by
    intro c hc
    rcases List.mem_append.1 hc with h | h
    · exact hu2 c h
    · rcases List.mem_cons.1 h with h | h
      · rw [h]; decide
      · exact hp2 c h
  have hcontent : u ++ ",".toList ++ p ++ "\n".toList = (u ++ ',' :: p) ++ '\n' :: [] := by
    simp
  have h1 := getline_delim (u ++ ',' :: p) [] line '\n' hline
  have h2 := getline_delim u p a ',' hu1
  have h3 := getline_no_delim p b ',' hp1
  have h4 : getline { buf := [], eofbit := false, failbit := false } (u ++ ',' :: p) '\n'
      = ({ buf := [], eofbit := true, failbit := true }, []) := by
    simp [getline, IStream.good]
  simp only [scanUserCredentials, IStream.ofContent, hcontent, h1, h2, h3, h4,
    Bool.false_eq_true, if_false, if_true]
  by_cases hup : u = pm.username ∧ p = pm.mainPassword
  · simp [hup.1, hup.2]
  · have hd : (decide (u = pm.username) && decide (p = pm.mainPassword)) = false := by
      rw [← Bool.decide_and]
      exact decide_eq_false hup
    simp [hd, hup]

theorem paths_differ : compressedFile ≠ tempUserCredentials := by decide

/-- What a normal return of `saveUserCredentialsToFile` tells: the scratch file could be
written and read, the master file could be written, the encoder accepted the line, and
the master file now holds the encoded line. -/
theorem saveUserCredentialsToFile_returned (codec : Codec) (pm : PasswordManager) (w : World)
    (h : (saveUserCredentialsToFile codec pm w).result = .returned ()) :
    w.canWrite tempUserCredentials = true ∧ w.canRead tempUserCredentials = true ∧
    ∃ y, codec.encode (pm.username ++ ",".toList ++ pm.mainPassword ++ "\n".toList) = some y ∧
      (saveUserCredentialsToFile codec pm w).world.files compressedFile = some y ∧
      (saveUserCredentialsToFile codec pm w).world.canRead = w.canRead ∧
      (saveUserCredentialsToFile codec pm w).world.canWrite = w.canWrite := by
  have hne := paths_differ
  unfold saveUserCredentialsToFile at h ⊢
  generalize pm.username ++ ",".toList ++ pm.mainPassword ++ "\n".toList = line at h ⊢
  by_cases hcw : w.canWrite tempUserCredentials = true
  · by_cases hcr : w.canRead tempUserCredentials = true
    · cases henc : codec.encode line with
      | none =>
        simp [World.ofstream_trunc, Compression.compress,
          World.ifstream, World.write, hcw, hcr, henc] at h
      | some y =>
        by_cases hcc : w.canWrite compressedFile = true
        · refine ⟨hcw, hcr, y, rfl, ?_, ?_, ?_⟩
          · simp [World.ofstream_trunc, Compression.compress,
              World.ifstream, World.write, World.remove, hcw, hcr, henc, hcc, hne]
          · simp [World.ofstream_trunc, Compression.compress,
              World.ifstream, World.write, World.remove, hcw, hcr, henc, hcc, hne]
          · simp [World.ofstream_trunc, Compression.compress,
              World.ifstream, World.write, World.remove, hcw, hcr, henc, hcc, hne]
        · simp [World.ofstream_trunc, Compression.compress,
            World.ifstream, World.write, hcw, hcr, henc, hcc] at h
    · simp [World.ofstream_trunc, Compression.compress,
        World.ifstream, World.write, hcw, hcr] at h
  · simp [World.ofstream_trunc, hcw] at h

/-- Loading the master file that holds the encoding of a text, when the scratch file can
be written and read and the master file can be read: the scan of that text is returned. -/
theorem loadUserCredentialsFromFile_of_file (codec : Codec) (pm : PasswordManager) (w : World)
    (x y : Str) (hfile : w.files compressedFile = some y) (hdec : codec.decode y = some x)
    (hcr : w.canRead compressedFile = true) (htw : w.canWrite tempUserCredentials = true)
    (htr : w.canRead tempUserCredentials = true) :
    (loadUserCredentialsFromFile codec pm w).result
      = .returned (scanUserCredentials pm (x.length + 1) (IStream.ofContent x) [] [] []) := by
  simp [loadUserCredentialsFromFile, Decompression.decompress, World.ifstream,
    World.ofstream_trunc, World.write, hfile, hdec, hcr, htw, htr]

theorem plainCodec_lossless : plainCodec.Lossless := by
  intro x y h
  simp only [plainCodec, Option.some.injEq] at h ⊢
  exact h.symm

/-- Saving a pair without separators and then loading: the answer is whether the loading
object carries exactly the saved pair. -/
theorem load_after_save (codec : Codec) (hloss : codec.Lossless)
    (saver loader : PasswordManager) (w : World)
    (hu : noSeparator saver.username = true) (hp : noSeparator saver.mainPassword = true)
    (hsave : (saveUserCredentialsToFile codec saver w).result = .returned ())
    (hcr : w.canRead compressedFile = true) :
    (loadUserCredentialsFromFile codec loader (saveUserCredentialsToFile codec saver w).world).result
      = .returned (decide (saver.username = loader.username ∧
          saver.mainPassword = loader.mainPassword)) := by
  obtain ⟨htw, htr, y, henc, hfile, hread, hwrite⟩ :=
    saveUserCredentialsToFile_returned codec saver w hsave
  rw [loadUserCredentialsFromFile_of_file codec loader _ _ y hfile (hloss _ _ henc)
    (by rw [hread]; exact hcr) (by rw [hwrite]; exact htw) (by rw [hread]; exact htr)]
  have hlen : (saver.username ++ ",".toList ++ saver.mainPassword ++ "\n".toList).length + 1
      = (saver.username.length + saver.mainPassword.length + 1) + 2 := by
    have h1 : ",".toList.length = 1 := rfl
    have h2 : "\n".toList.length = 1 := rfl
    simp only [List.length_append, h1, h2]
    omega
  rw [hlen, scanUserCredentials_saved_line loader _ _ hu hp]

/-- C9, the claim as stated fails: with a lossless codec, the master pair
(alice, "hunter2,pass") is saved normally, and loading with the same pair returns false. -/
theorem saved_pair_with_comma_is_rejected :
    plainCodec.Lossless ∧
    (saveUserCredentialsToFile plainCodec commaPassword emptyWorld).result = .returned () ∧
    (loadUserCredentialsFromFile plainCodec commaPassword
      (saveUserCredentialsToFile plainCodec commaPassword emptyWorld).world).result
      = .returned false :=
  ⟨plainCodec_lossless, by decide, by decide⟩

/-- C9, amended: for every master pair in which neither the username nor the password
contains ',' or a newline, with a lossless codec: when `saveUserCredentialsToFile` returns
normally and the master file can be read, `loadUserCredentialsFromFile` on an object with
the same username and mainPassword returns true. -/
theorem saved_pair_is_accepted (codec : Codec) (hloss : codec.Lossless)
    (saver loader : PasswordManager) (w : World)
    (hu : noSeparator saver.username = true) (hp : noSeparator saver.mainPassword = true)
    (hsame : loader.username = saver.username ∧ loader.mainPassword = saver.mainPassword)
    (hsave : (saveUserCredentialsToFile codec saver w).result = .returned ())
    (hcr : w.canRead compressedFile = true) :
    (loadUserCredentialsFromFile codec loader (saveUserCredentialsToFile codec saver w).world).result
      = .returned true := by
  rw [load_after_save codec hloss saver loader w hu hp hsave hcr]
  simp [hsame.1, hsame.2]

/-- C9 amended, on the pair of the specification: (alice, "hunter2pass") is saved and
then accepted. -/
theorem saved_pair_is_accepted_witness :
    (loadUserCredentialsFromFile plainCodec (emptyStore "alice".toList "hunter2pass".toList)
      (saveUserCredentialsToFile plainCodec (emptyStore "alice".toList "hunter2pass".toList)
        emptyWorld).world).result = .returned true :=
  saved_pair_is_accepted plainCodec plainCodec_lossless
    (emptyStore "alice".toList "hunter2pass".toList)
    (emptyStore "alice".toList "hunter2pass".toList) emptyWorld
    (by decide) (by decide) ⟨rfl, rfl⟩ (by decide) rfl

/-- C10, the claim as stated fails: with a lossless codec, after the master pair
(alice, "hunter2,pass") is saved, loading with the different pair (alice, "hunter2")
returns true. -/
theorem other_pair_is_accepted_after_comma :
    plainCodec.Lossless ∧
    (saveUserCredentialsToFile plainCodec commaPassword emptyWorld).result = .returned () ∧
    beforeComma.mainPassword ≠ commaPassword.mainPassword ∧
    (loadUserCredentialsFromFile plainCodec beforeComma
      (saveUserCredentialsToFile plainCodec commaPassword emptyWorld).world).result
      = .returned true :=
  ⟨plainCodec_lossless, by decide, by decide, by decide⟩

/-- C10, amended: for every saved master pair in which neither the username nor the
password contains ',' or a newline, with a lossless codec: when
`saveUserCredentialsToFile` returns normally and the master file can be read,
`loadUserCredentialsFromFile` on an object whose username or mainPassword differs from the
saved one returns false. -/
theorem other_pair_is_rejected (codec : Codec) (hloss : codec.Lossless)
    (saver loader : PasswordManager) (w : World)
    (hu : noSeparator saver.username = true) (hp : noSeparator saver.mainPassword = true)
    (hother : loader.username ≠ saver.username ∨ loader.mainPassword ≠ saver.mainPassword)
    (hsave : (saveUserCredentialsToFile codec saver w).result = .returned ())
    (hcr : w.canRead compressedFile = true) :
    (loadUserCredentialsFromFile codec loader (saveUserCredentialsToFile codec saver w).world).result
      = .returned false := by
  rw [load_after_save codec hloss saver loader w hu hp hsave hcr]
  have hne : ¬ (saver.username = loader.username ∧ saver.mainPassword = loader.mainPassword) := by
    rintro ⟨h1, h2⟩
    rcases hother with h | h
    · exact h h1.symm
    · exact h h2.symm
  rw [decide_eq_false hne]

/-- C10 amended, on the pairs of the specification: with (alice, "hunter2pass") saved,
(alice, "wrong") and (bob, "hunter2pass") are both rejected. -/
theorem other_pair_is_rejected_witness :
    (loadUserCredentialsFromFile plainCodec (emptyStore "alice".toList "wrong".toList)
      (saveUserCredentialsToFile plainCodec (emptyStore "alice".toList "hunter2pass".toList)
        emptyWorld).world).result = .returned false ∧
    (loadUserCredentialsFromFile plainCodec (emptyStore "bob".toList "hunter2pass".toList)
      (saveUserCredentialsToFile plainCodec (emptyStore "alice".toList "hunter2pass".toList)
        emptyWorld).world).result = .returned false :=
  ⟨other_pair_is_rejected plainCodec plainCodec_lossless
      (emptyStore "alice".toList "hunter2pass".toList)
      (emptyStore "alice".toList "wrong".toList) emptyWorld
      (by decide) (by decide) (Or.inr (by decide)) (by decide) rfl,
   other_pair_is_rejected plainCodec plainCodec_lossless
      (emptyStore "alice".toList "hunter2pass".toList)
      (emptyStore "bob".toList "hunter2pass".toList) emptyWorld
      (by decide) (by decide) (Or.inl (by decide)) (by decide) rfl⟩

/-! ### The two loops never run out of rounds -/

theorem length_dropWhile_le (p : Char → Bool) (l : Str) :
    (l.dropWhile p).length ≤ l.length := by
  induction l with
  | nil => simp
  | cons a t ih =>
    rw [List.dropWhile_cons]
    split_ifs
    · exact Nat.le_succ_of_le ih
    · exact Nat.le_refl _

theorem dropWhile_head_false (p : Char → Bool) (l : Str) (a : Char) (t : Str)
    (h : l.dropWhile p = a :: t) : p a = false := by
  induction l with
  | nil => simp at h
  | cons x xs ih =>
    rw [List.dropWhile_cons] at h
    split_ifs at h with hx
    · exact ih h
    · have hxa : x = a := (List.cons.inj h).1
      rw [← hxa]
      simpa using hx

theorem extractWord_not_good (is : IStream) (str : Str) (hg : is.good = false) :
    extractWord is str = ({ is with failbit := true }, str) := by
  simp [extractWord, hg]

theorem extractWord_at_eof (is : IStream) (str : Str) (hg : is.good = true)
    (hd : is.buf.dropWhile isspace = []) :
    extractWord is str = ({ buf := [], eofbit := true, failbit := true }, str) := by
  simp only [extractWord, hg, Bool.not_true, Bool.false_eq_true, if_false, hd, if_true]

theorem extractWord_some (is : IStream) (str : Str) (hg : is.good = true) (a : Char) (t : Str)
    (hd : is.buf.dropWhile isspace = a :: t) :
    extractWord is str
      = ({ buf := (a :: t).dropWhile (fun c => !isspace c),
           eofbit := decide ((a :: t).dropWhile (fun c => !isspace c) = []),
           failbit := false },
         (a :: t).takeWhile (fun c => !isspace c)) := by
  have hne : (a :: t : Str) ≠ [] := List.cons_ne_nil a t
  simp only [extractWord, hg, Bool.not_true, Bool.false_eq_true, if_false, hd, hne]

/-- A word extraction that does not fail takes at least one character off the stream. -/
theorem extractWord_consumes (is : IStream) (str : Str)
    (h : (extractWord is str).1.failbit = false) :
    (extractWord is str).1.buf.length < is.buf.length := by
  cases hg : is.good with
  | false =>
    rw [extractWord_not_good is str hg] at h
    simp at h
  | true =>
    cases hd : is.buf.dropWhile isspace with
    | nil =>
      rw [extractWord_at_eof is str hg hd] at h
      simp at h
    | cons a t =>
      rw [extractWord_some is str hg a t hd]
      have ha : isspace a = false := dropWhile_head_false isspace is.buf a t hd
      have h1 := length_dropWhile_le isspace is.buf
      have h2 := length_dropWhile_le (fun c => !isspace c) t
      rw [hd] at h1
      simp only [List.dropWhile_cons, ha, Bool.not_false, if_true]
      simp only [List.length_cons] at h1
      omega

/-- A word extraction never adds characters to the stream. -/
theorem extractWord_buf_le (is : IStream) (str : Str) :
    (extractWord is str).1.buf.length ≤ is.buf.length := by
  cases hg : is.good with
  | false =>
    rw [extractWord_not_good is str hg]
  | true =>
    cases hd : is.buf.dropWhile isspace with
    | nil =>
      rw [extractWord_at_eof is str hg hd]
      exact Nat.zero_le _
    | cons a t =>
      have hf : (extractWord is str).1.failbit = false := by
        rw [extractWord_some is str hg a t hd]
      exact Nat.le_of_lt (extractWord_consumes is str hf)

/-- With more rounds than characters left, the loop of `loadCredentialsFromFile` gives the
same list whatever the number of rounds: it ends because the stream fails. -/
theorem readCredentials_fuel (n : Nat) :
    ∀ (m : Nat) (file : IStream) (a b : Str) (acc : List (Str × Str)),
      file.buf.length < n → file.buf.length < m →
      readCredentials n file a b acc = readCredentials m file a b acc := by
  induction n with
  | zero => intro m file a b acc hn; simp at hn
  | succ k ih =>
    intro m file a b acc hn hm
    cases m with
    | zero => simp at hm
    | succ j =>
      simp only [readCredentials]
      by_cases hf : (extractWord (extractWord file a).1 b).1.failbit = true
      · simp [hf]
      · have hf2 : (extractWord (extractWord file a).1 b).1.failbit = false := by
          simpa using hf
        have h1 := extractWord_consumes (extractWord file a).1 b hf2
        have h2 := extractWord_buf_le file a
        simp only [hf2, Bool.false_eq_true, if_false]
        exact ih j _ _ _ _ (by omega) (by omega)

theorem getline_not_good (is : IStream) (str : Str) (delim : Char) (hg : is.good = false) :
    getline is str delim = ({ is with failbit := true }, str) := by
  simp [getline, hg]

theorem getline_at_eof (is : IStream) (str : Str) (delim : Char) (hg : is.good = true)
    (hd : is.buf.dropWhile (fun c => decide (c ≠ delim)) = []) :
    getline is str delim
      = ({ buf := [], eofbit := true,
           failbit := decide (is.buf.takeWhile (fun c => decide (c ≠ delim)) = []) },
         is.buf.takeWhile (fun c => decide (c ≠ delim))) := by
  simp only [getline, hg, Bool.not_true, Bool.false_eq_true, if_false, hd]

theorem getline_some (is : IStream) (str : Str) (delim : Char) (hg : is.good = true)
    (a : Char) (t : Str) (hd : is.buf.dropWhile (fun c => decide (c ≠ delim)) = a :: t) :
    getline is str delim
      = ({ buf := t, eofbit := false, failbit := false },
         is.buf.takeWhile (fun c => decide (c ≠ delim))) := by
  simp only [getline, hg, Bool.not_true, Bool.false_eq_true, if_false, hd]

/-- A line read that does not fail takes at least one character off the stream. -/
theorem getline_consumes (is : IStream) (str : Str) (delim : Char)
    (h : (getline is str delim).1.failbit = false) :
    (getline is str delim).1.buf.length < is.buf.length := by
  cases hg : is.good with
  | false =>
    rw [getline_not_good is str delim hg] at h
    simp at h
  | true =>
    cases hd : is.buf.dropWhile (fun c => decide (c ≠ delim)) with
    | nil =>
      rw [getline_at_eof is str delim hg hd] at h ⊢
      have hne : is.buf ≠ [] := by
        intro hb
        rw [hb] at h
        simp at h
      exact List.length_pos.2 hne
    | cons a t =>
      rw [getline_some is str delim hg a t hd]
      have hlen := length_dropWhile_le (fun c => decide (c ≠ delim)) is.buf
      rw [hd] at hlen
      simp only [List.length_cons] at hlen
      exact hlen

/-- With more rounds than characters left, the loop of `loadUserCredentialsFromFile` gives
the same answer whatever the number of rounds: it ends because the stream fails. -/
theorem scanUserCredentials_fuel (pm : PasswordManager) (n : Nat) :
    ∀ (m : Nat) (tempFile : IStream) (line a b : Str),
      tempFile.buf.length < n → tempFile.buf.length < m →
      scanUserCredentials pm n tempFile line a b = scanUserCredentials pm m tempFile line a b := by
  induction n with
  | zero => intro m tempFile line a b hn; simp at hn
  | succ k ih =>
    intro m tempFile line a b hn hm
    cases m with
    | zero => simp at hm
    | succ j =>
      simp only [scanUserCredentials]
      by_cases hf : (getline tempFile line '\n').1.failbit = true
      · simp [hf]
      · have hf2 : (getline tempFile line '\n').1.failbit = false := by simpa using hf
        have h1 := getline_consumes tempFile line '\n' hf2
        simp only [hf2, Bool.false_eq_true, if_false]
        split_ifs
        · rfl
        · exact ih j _ _ _ _ (by omega) (by omega)

/-! ### Service names: duplicates, failed calls, other services -/

theorem getCredentialLoop_append (t : Str) (l r : List (Str × Str)) :
    getCredentialLoop t (l ++ r)
      = match getCredentialLoop t l with
        | some v => some v
        | none => getCredentialLoop t r := by
  induction l with
  | nil => simp [getCredentialLoop]
  | cons a rest ih =>
    by_cases ha : a.1 = t
    · simp [getCredentialLoop, ha]
    · simp only [List.cons_append, getCredentialLoop, ha, if_false]
      exact ih

theorem getCredentialLoop_filter_other (s t : Str) (hst : s ≠ t) (l : List (Str × Str)) :
    getCredentialLoop t (l.filter (fun e => decide (e.1 ≠ s))) = getCredentialLoop t l := by
  induction l with
  | nil => rfl
  | cons a rest ih =>
    by_cases has : a.1 = s
    · have hat : a.1 ≠ t := by rw [has]; exact hst
      simp only [List.filter_cons, has, ne_eq, not_true_eq_false, decide_False,
        Bool.false_eq_true, if_false, getCredentialLoop, hat, hst]
      exact ih
    · have hd : decide (a.1 ≠ s) = true := decide_eq_true has
      simp only [List.filter_cons, hd, if_true, getCredentialLoop]
      rw [ih]

theorem hasPassword_eq_isSome (pm : PasswordManager) (s : Str) :
    hasPassword pm s = (getCredential pm s).isSome := by
  unfold hasPassword getCredential
  induction pm.credentials with
  | nil => rfl
  | cons a rest ih =>
    by_cases ha : a.1 = s
    · simp [getCredentialLoop, ha]
    · simp only [List.any_cons, getCredentialLoop, ha, decide_False, Bool.false_or, if_false]
      exact ih

theorem addNewPassword_credentials_cases (pm : PasswordManager) (w : World) (s u p : Str) :
    ((addNewPassword pm w s u p).result = .threw .weakPassword ∧
      (addNewPassword pm w s u p).self.credentials = pm.credentials) ∨
    ((addNewPassword pm w s u p).result ≠ .threw .weakPassword ∧
      (addNewPassword pm w s u p).self.credentials
        = pm.credentials ++ [(s, u ++ ":".toList ++ p)]) := by
  by_cases hv : validate pm p = true
  · right
    have hp : 8 < p.length := by simpa [validate] using hv
    refine ⟨?_, by rw [addNewPassword_self pm w s u p hp]⟩
    rw [addNewPassword_result pm w s u p hp]
    split_ifs <;> simp
  · left
    simp [addNewPassword, hv]

/-- C11, the claim as stated fails: two adds of the service github on the empty store both
return normally and leave two records named github. -/
theorem two_adds_share_a_name :
    (addNewPassword (emptyStore "alice".toList []) emptyWorld
      "github".toList "alice".toList "Sup3rSecret!".toList).result = .returned () ∧
    addedTwice.result = .returned () ∧
    addedTwice.self.credentials.map Prod.fst = ["github".toList, "github".toList] ∧
    ¬ (addedTwice.self.credentials.map Prod.fst).Nodup := by
  decide

/-- C11, amended: on a store in which no two records share a service name,
`deletePassword` leaves such a store; `addNewPassword` leaves such a store when no record
carries the added service name; and `loadCredentialsFromFile` leaves such a store when it
reads the file that `saveCredentialsToFile` wrote for that store and every record is plain
(non-empty fields without white space). -/
theorem unique_names_preserved (pm loader : PasswordManager) (w : World) (s u p : Str)
    (hnodup : (pm.credentials.map Prod.fst).Nodup) :
    ((deletePassword pm w s).self.credentials.map Prod.fst).Nodup ∧
    ((∀ e ∈ pm.credentials, e.1 ≠ s) →
      ((addNewPassword pm w s u p).self.credentials.map Prod.fst).Nodup) ∧
    ((∀ e ∈ pm.credentials, plainRecord e = true) →
      w.canWrite (credentialsPath pm) = true → w.canRead (credentialsPath pm) = true →
      loader.username = pm.username →
      ((loadCredentialsFromFile loader
        (saveCredentialsToFile pm w).world).self.credentials.map Prod.fst).Nodup) := by
  refine ⟨?_, ?_, ?_⟩
  · rw [deletePassword_self_credentials]
    exact hnodup.sublist (List.Sublist.map _ (List.filter_sublist _))
  · intro hfresh
    rcases addNewPassword_credentials_cases pm w s u p with h | h
    · rw [h.2]
      exact hnodup
    · rw [h.2, List.map_append]
      refine List.Nodup.append hnodup (by simp) ?_
      intro x hx hx2
      obtain ⟨e, he, hex⟩ := List.mem_map.1 hx
      have hxs : x = s := by simpa using hx2
      exact hfresh e he (hex.trans hxs)
  · intro hplain hw hr howner
    rw [(save_then_load pm loader w hplain hw hr howner).2.2]
    exact hnodup

/-- C11 amended, on a store with the records github and gitlab: deleting github, and
adding bitbucket, both leave different names. -/
theorem unique_names_preserved_witness :
    ((deletePassword
        { emptyStore "alice".toList [] with
          credentials := [("github".toList, "a:password1".toList),
            ("gitlab".toList, "b:password2".toList)] }
        emptyWorld "github".toList).self.credentials.map Prod.fst).Nodup ∧
    ((addNewPassword
        { emptyStore "alice".toList [] with
          credentials := [("github".toList, "a:password1".toList),
            ("gitlab".toList, "b:password2".toList)] }
        emptyWorld "bitbucket".toList "carol".toList "password3".toList).self.credentials.map
          Prod.fst).Nodup :=
  have h := unique_names_preserved
    { emptyStore "alice".toList [] with
      credentials := [("github".toList, "a:password1".toList),
        ("gitlab".toList, "b:password2".toList)] }
    (emptyStore "alice".toList []) emptyWorld "github".toList [] [] (by decide)
  have h2 := unique_names_preserved
    { emptyStore "alice".toList [] with
      credentials := [("github".toList, "a:password1".toList),
        ("gitlab".toList, "b:password2".toList)] }
    (emptyStore "alice".toList []) emptyWorld "bitbucket".toList "carol".toList
    "password3".toList (by decide)
  ⟨h.1, h2.2.1 (by decide)⟩

/-- C12, the claim as stated fails: where the owner's file cannot be opened for writing,
add("github", "alice", "Sup3rSecret!") on the empty store throws the file-open exception
and the record list holds the new record all the same. -/
theorem failed_add_keeps_record :
    (addNewPassword (emptyStore "alice".toList []) readOnlyWorld
      "github".toList "alice".toList "Sup3rSecret!".toList).result = .threw .credOpenWrite ∧
    (addNewPassword (emptyStore "alice".toList []) readOnlyWorld
      "github".toList "alice".toList "Sup3rSecret!".toList).self.credentials
      = [("github".toList, "alice:Sup3rSecret!".toList)] ∧
    (addNewPassword (emptyStore "alice".toList []) readOnlyWorld
      "github".toList "alice".toList "Sup3rSecret!".toList).self.credentials
      ≠ (emptyStore "alice".toList []).credentials := by
  decide

/-- C12, amended: a call of `addNewPassword` that throws either throws the weak-password
exception with the record list as before, or throws the file-open exception of the save
step with the new record already appended; a call of `deletePassword` that throws either
throws service-not-found with the record list as before, or throws the file-open exception
of the save step with the matching records already removed.  In every one of these cases
the files are as before the call. -/
theorem failed_mutation_state (pm : PasswordManager) (w : World) (s u p : Str) (e : Exn) :
    ((addNewPassword pm w s u p).result = .threw e →
      (addNewPassword pm w s u p).world.files = w.files ∧
      ((e = .weakPassword ∧ (addNewPassword pm w s u p).self.credentials = pm.credentials) ∨
       (e = .credOpenWrite ∧ (addNewPassword pm w s u p).self.credentials
          = pm.credentials ++ [(s, u ++ ":".toList ++ p)]))) ∧
    ((deletePassword pm w s).result = .threw e →
      (deletePassword pm w s).world.files = w.files ∧
      ((e = .serviceNotFound ∧ (deletePassword pm w s).self.credentials = pm.credentials) ∨
       (e = .credOpenWrite ∧ (deletePassword pm w s).self.credentials
          = pm.credentials.filter (fun r => decide (r.1 ≠ s))))) := by
  constructor
  · intro h
    by_cases hv : validate pm p = true
    · have hp : 8 < p.length := by simpa [validate] using hv
      have hself := addNewPassword_self pm w s u p hp
      rw [addNewPassword_result pm w s u p hp] at h
      by_cases hw : w.canWrite (credentialsPath pm) = true
      · rw [if_pos hw] at h
        cases h
      · rw [if_neg hw] at h
        have he : e = .credOpenWrite := by
          injection h with h
          exact h.symm
        refine ⟨?_, Or.inr ⟨he, by rw [hself]⟩⟩
        simp only [addNewPassword, hv, Bool.not_true, Bool.false_eq_true, if_false,
          saveCredentialsToFile, World.ofstream_trunc]
        have hw2 : (encrypt pm w p).canWrite (credentialsPath
            { pm with credentials := pm.credentials ++ [(s, u ++ ":".toList ++ p)] })
            = false := by
          simpa [encrypt, World.print, credentialsPath] using hw
        simp only [hw2, Bool.false_eq_true, if_false]
        rfl
    · have hadd : addNewPassword pm w s u p = ⟨.threw .weakPassword, pm, w⟩ := by
        simp [addNewPassword, hv]
      rw [hadd] at h ⊢
      have he : e = .weakPassword := by
        injection h with h
        exact h.symm
      exact ⟨rfl, Or.inl ⟨he, rfl⟩⟩
  · intro h
    refine ⟨?_, ?_⟩
    · unfold deletePassword
      simp only []
      split_ifs
      · unfold deletePassword at h
        simp only [] at h
        rw [if_pos (by assumption), saveCredentialsToFile_result] at h
        unfold saveCredentialsToFile World.ofstream_trunc
        split_ifs at h ⊢
        · rfl
      · rfl
    · by_cases hex : ∃ r ∈ pm.credentials, r.1 = s
      · rw [deletePassword_result_of_mem pm w s hex] at h
        split_ifs at h
        have he : e = .credOpenWrite := by
          injection h with h
          exact h.symm
        exact Or.inr ⟨he, deletePassword_self_credentials pm w s⟩
      · have hall : ∀ r ∈ pm.credentials, r.1 ≠ s := by
          intro r hr hrs
          exact hex ⟨r, hr, hrs⟩
        have hl := (remove_if_length_eq_iff s pm.credentials).2 hall
        have hdel : deletePassword pm w s = ⟨.threw .serviceNotFound, pm, w⟩ := by
          simp [deletePassword, hl]
        rw [hdel] at h ⊢
        have he : e = .serviceNotFound := by
          injection h with h
          exact h.symm
        exact Or.inl ⟨he, rfl⟩

/-- C12 amended, on the two failures that leave the list alone: a weak password on the
empty store, and the delete of a service that is not there. -/
theorem failed_mutation_state_witness :
    (addNewPassword (emptyStore "alice".toList []) emptyWorld
      "github".toList "alice".toList "short".toList).self.credentials
      = (emptyStore "alice".toList []).credentials ∧
    (deletePassword (emptyStore "alice".toList []) emptyWorld
      "github".toList).self.credentials = (emptyStore "alice".toList []).credentials :=
  ⟨(((failed_mutation_state (emptyStore "alice".toList []) emptyWorld "github".toList
      "alice".toList "short".toList .weakPassword).1 (by decide)).2.resolve_right
        (by rintro ⟨h, _⟩; cases h)).2,
   (((failed_mutation_state (emptyStore "alice".toList []) emptyWorld "github".toList
      [] [] .serviceNotFound).2 (by decide)).2.resolve_right
        (by rintro ⟨h, _⟩; cases h)).2⟩

/-- C14: on a store that already holds a record named `s`, for a password longer than 8
characters and an owner's file that can be opened for writing, `addNewPassword(s, u, p)`
returns normally, the record count grows by one, `getCredential(s)` returns the same
payload as before the add and `hasPassword(s)` is true. -/
theorem duplicate_name_is_appended (pm : PasswordManager) (w : World) (s u p : Str)
    (hex : ∃ e ∈ pm.credentials, e.1 = s) (hp : 8 < p.length)
    (hw : w.canWrite (credentialsPath pm) = true) :
    (addNewPassword pm w s u p).result = .returned () ∧
    (addNewPassword pm w s u p).self.credentials.length = pm.credentials.length + 1 ∧
    getCredential (addNewPassword pm w s u p).self s = getCredential pm s ∧
    hasPassword (addNewPassword pm w s u p).self s = true := by
  have hself := addNewPassword_self pm w s u p hp
  have hget : getCredential (addNewPassword pm w s u p).self s = getCredential pm s := by
    unfold getCredential
    rw [hself]
    simp only []
    rw [getCredentialLoop_append]
    cases hg : getCredentialLoop s pm.credentials with
    | some v => rfl
    | none =>
      obtain ⟨e, he, hes⟩ := hex
      exact absurd hes ((getCredentialLoop_eq_none s pm.credentials).1 hg e he)
  refine ⟨?_, ?_, hget, ?_⟩
  · rw [addNewPassword_result pm w s u p hp, if_pos hw]
  · rw [hself]
    simp
  · rw [hasPassword_eq_isSome, hget, ← hasPassword_eq_isSome]
    exact (hasPassword_iff_exists pm s).2 hex

/-- C14 on a store holding github with the payload of alice: a second add of github keeps
the lookup at the payload of alice. -/
theorem duplicate_name_is_appended_witness :
    getCredential
      (addNewPassword
        { emptyStore "alice".toList [] with
          credentials := [("github".toList, "alice:Sup3rSecret!".toList)] }
        emptyWorld "github".toList "bob".toList "password123".toList).self "github".toList
      = getCredential
        { emptyStore "alice".toList [] with
          credentials := [("github".toList, "alice:Sup3rSecret!".toList)] } "github".toList :=
  (duplicate_name_is_appended
    { emptyStore "alice".toList [] with
      credentials := [("github".toList, "alice:Sup3rSecret!".toList)] }
    emptyWorld "github".toList "bob".toList "password123".toList
    ⟨("github".toList, "alice:Sup3rSecret!".toList), List.mem_cons_self _ _, rfl⟩
    (by decide) rfl).2.2.1

/-- C19: for service names `s ≠ t`, `getCredential(t)` and `hasPassword(t)` give after
`addNewPassword(s, u, p)` and after `deletePassword(s)` what they gave before the call,
whether the call returns normally or throws. -/
theorem other_service_undisturbed (pm : PasswordManager) (w : World) (s t u p : Str)
    (hst : s ≠ t) :
    getCredential (addNewPassword pm w s u p).self t = getCredential pm t ∧
    hasPassword (addNewPassword pm w s u p).self t = hasPassword pm t ∧
    getCredential (deletePassword pm w s).self t = getCredential pm t ∧
    hasPassword (deletePassword pm w s).self t = hasPassword pm t := by
  have hadd : getCredential (addNewPassword pm w s u p).self t = getCredential pm t := by
    unfold getCredential
    rcases addNewPassword_credentials_cases pm w s u p with h | h
    · rw [h.2]
    · rw [h.2, getCredentialLoop_append]
      cases getCredentialLoop t pm.credentials with
      | some v => rfl
      | none => simp [getCredentialLoop, hst]
  have hdel : getCredential (deletePassword pm w s).self t = getCredential pm t := by
    unfold getCredential
    rw [deletePassword_self_credentials]
    exact getCredentialLoop_filter_other s t hst pm.credentials
  refine ⟨hadd, ?_, hdel, ?_⟩
  · rw [hasPassword_eq_isSome, hadd, ← hasPassword_eq_isSome]
  · rw [hasPassword_eq_isSome, hdel, ← hasPassword_eq_isSome]

/-- C19 on a store holding gitlab: the lookup of gitlab is the same after a successful add
of github and after a successful delete of it. -/
theorem other_service_undisturbed_witness :
    getCredential
      (addNewPassword
        { emptyStore "alice".toList [] with
          credentials := [("gitlab".toList, "bob:password2".toList)] }
        emptyWorld "github".toList "alice".toList "Sup3rSecret!".toList).self "gitlab".toList
      = some "bob:password2".toList ∧
    getCredential
      (deletePassword
        { emptyStore "alice".toList [] with
          credentials := [("gitlab".toList, "bob:password2".toList),
            ("github".toList, "alice:Sup3rSecret!".toList)] }
        emptyWorld "github".toList).self "gitlab".toList
      = some "bob:password2".toList :=
  ⟨(other_service_undisturbed
      { emptyStore "alice".toList [] with
        credentials := [("gitlab".toList, "bob:password2".toList)] }
      emptyWorld "github".toList "gitlab".toList "alice".toList "Sup3rSecret!".toList
      (by decide)).1,
   (other_service_undisturbed
      { emptyStore "alice".toList [] with
        credentials := [("gitlab".toList, "bob:password2".toList),
          ("github".toList, "alice:Sup3rSecret!".toList)] }
      emptyWorld "github".toList "gitlab".toList [] [] (by decide)).2.2.1⟩

/-! ### The owner's file after a mutation -/

/-- After a save that returns normally the owner's file holds the text of the record
list and every other file is as before. -/
theorem saveCredentialsToFile_files (pm : PasswordManager) (w : World)
    (hw : w.canWrite (credentialsPath pm) = true) :
    (saveCredentialsToFile pm w).world.files
      = fun q => if q = credentialsPath pm then some (serializeCredentials pm.credentials)
          else w.files q := by
  unfold saveCredentialsToFile World.ofstream_trunc
  simp only [hw, if_true]
  rw [foldl_write_files (credentialsPath pm) pm.credentials _ [] (by simp)]
  funext q
  by_cases hq : q = credentialsPath pm
  · simp [hq]
  · simp [hq]

theorem canWrite_of_save_returned (pm : PasswordManager) (w : World)
    (h : (saveCredentialsToFile pm w).result = .returned ()) :
    w.canWrite (credentialsPath pm) = true := by
  rw [saveCredentialsToFile_result] at h
  by_contra hw
  rw [if_neg hw] at h
  cases h

/-- C15: after `addNewPassword` or `deletePassword` returns normally, the file
`<username>_passwords.dat` holds exactly the text of the in-memory record list (for each
record in order: service name, a space, the payload, a newline), whatever it held before,
and every other file is as it was before the call. -/
theorem disk_mirrors_memory (pm : PasswordManager) (w : World) (s u p : Str) :
    ((addNewPassword pm w s u p).result = .returned () →
      (addNewPassword pm w s u p).world.files
        = fun q => if q = credentialsPath pm
            then some (serializeCredentials (addNewPassword pm w s u p).self.credentials)
            else w.files q) ∧
    ((deletePassword pm w s).result = .returned () →
      (deletePassword pm w s).world.files
        = fun q => if q = credentialsPath pm
            then some (serializeCredentials (deletePassword pm w s).self.credentials)
            else w.files q) := by
  constructor
  · intro h
    by_cases hv : validate pm p = true
    · simp only [addNewPassword, hv, Bool.not_true, Bool.false_eq_true, if_false] at h ⊢
      rw [saveCredentialsToFile_files _ _ (canWrite_of_save_returned _ _ h),
        saveCredentialsToFile_self]
      rfl
    · simp [addNewPassword, hv] at h
  · intro h
    unfold deletePassword at h ⊢
    simp only [] at h ⊢
    split_ifs at h ⊢
    rw [saveCredentialsToFile_files _ _ (canWrite_of_save_returned _ _ h),
      saveCredentialsToFile_self]
    rfl

/-- C15 on the empty store of alice: after the add of github the file of alice holds the
one line of that record. -/
theorem disk_mirrors_memory_witness :
    (addNewPassword (emptyStore "alice".toList []) emptyWorld
      "github".toList "alice".toList "Sup3rSecret!".toList).world.files
      = fun q => if q = credentialsPath (emptyStore "alice".toList [])
          then some (serializeCredentials
            (addNewPassword (emptyStore "alice".toList []) emptyWorld
              "github".toList "alice".toList "Sup3rSecret!".toList).self.credentials)
          else emptyWorld.files q :=
  (disk_mirrors_memory (emptyStore "alice".toList []) emptyWorld
    "github".toList "alice".toList "Sup3rSecret!".toList).1 (by decide)

/-- A load that returns normally leaves the records that the loop reads from the file,
whatever the object held before. -/
theorem loadCredentialsFromFile_ignores_old (pm : PasswordManager) (w : World)
    (old : List (Str × Str)) :
    (loadCredentialsFromFile { pm with credentials := old } w).self.credentials
        = (loadCredentialsFromFile pm w).self.credentials ∨
    (loadCredentialsFromFile pm w).result = .threw .credOpenRead := by
  unfold loadCredentialsFromFile
  have hpath : credentialsPath { pm with credentials := old } = credentialsPath pm := rfl
  rw [hpath]
  cases w.ifstream (credentialsPath pm) with
  | none => right; rfl
  | some content => left; rfl

/-- A load either returns normally or throws the file-open exception with the object and
the world exactly as they were. -/
theorem loadCredentialsFromFile_cases (pm : PasswordManager) (w : World) :
    (loadCredentialsFromFile pm w).result = .returned () ∨
    loadCredentialsFromFile pm w = ⟨.threw .credOpenRead, pm, w⟩ := by
  unfold loadCredentialsFromFile
  cases w.ifstream (credentialsPath pm) with
  | none => right; rfl
  | some content => left; rfl

/-- C18, the claim as stated fails: loading does not always discard the records held
before.  On a store of alice that holds one record, in a world without files,
`loadCredentialsFromFile` throws the file-open exception and the record is still there. -/
theorem failed_load_keeps_records :
    (loadCredentialsFromFile staleStore emptyWorld).result = .threw .credOpenRead ∧
    staleStore.credentials = [("stale".toList, "x:password0".toList)] ∧
    (loadCredentialsFromFile staleStore emptyWorld).self.credentials
      = [("stale".toList, "x:password0".toList)] ∧
    (loadCredentialsFromFile staleStore emptyWorld).self.credentials
      ≠ (loadCredentialsFromFile { staleStore with credentials := [] }
          emptyWorld).self.credentials := by
  decide

/-- C18, amended: for a record list in which every service name and every payload is
non-empty and free of white space, when the owner's file can be opened for writing and for
reading, `loadCredentialsFromFile` on the file written by `saveCredentialsToFile` returns
normally with exactly that list; a load that returns normally (the file could be opened)
leaves the same list whatever records the loading object held before; and a load that does
not return normally throws the file-open exception and leaves the object, with the records
it held, and the world as they were. -/
theorem plain_records_roundtrip (pm loader : PasswordManager) (w : World)
    (hl : ∀ e ∈ pm.credentials, plainRecord e = true)
    (hw : w.canWrite (credentialsPath pm) = true)
    (hr : w.canRead (credentialsPath pm) = true)
    (howner : loader.username = pm.username) :
    (saveCredentialsToFile pm w).result = .returned () ∧
    (loadCredentialsFromFile loader (saveCredentialsToFile pm w).world).result = .returned () ∧
    (loadCredentialsFromFile loader (saveCredentialsToFile pm w).world).self.credentials
      = pm.credentials ∧
    (∀ (w2 : World) (old : List (Str × Str)),
      (loadCredentialsFromFile loader w2).result = .returned () →
      (loadCredentialsFromFile { loader with credentials := old } w2).self.credentials
        = (loadCredentialsFromFile loader w2).self.credentials) ∧
    (∀ (w2 : World), (loadCredentialsFromFile loader w2).result ≠ .returned () →
      loadCredentialsFromFile loader w2 = ⟨.threw .credOpenRead, loader, w2⟩) := by
  obtain ⟨h1, h2, h3⟩ := save_then_load pm loader w hl hw hr howner
  refine ⟨h1, h2, h3, ?_, ?_⟩
  · intro w2 old hret
    rcases loadCredentialsFromFile_ignores_old loader w2 old with h | h
    · exact h
    · rw [h] at hret
      cases hret
  · intro w2 hne
    rcases loadCredentialsFromFile_cases loader w2 with h | h
    · exact absurd h hne
    · exact h

/-- C18 amended, on a store of alice with the records github and gitlab, loaded into an
object of alice that holds a stale record. -/
theorem plain_records_roundtrip_witness :
    (loadCredentialsFromFile
      { emptyStore "alice".toList [] with
        credentials := [("stale".toList, "x:password0".toList)] }
      (saveCredentialsToFile
        { emptyStore "alice".toList [] with
          credentials := [("github".toList, "alice:Sup3rSecret!".toList),
            ("gitlab".toList, "bob:password2".toList)] }
        emptyWorld).world).self.credentials
      = [("github".toList, "alice:Sup3rSecret!".toList),
          ("gitlab".toList, "bob:password2".toList)] :=
  (plain_records_roundtrip
    { emptyStore "alice".toList [] with
      credentials := [("github".toList, "alice:Sup3rSecret!".toList),
        ("gitlab".toList, "bob:password2".toList)] }
    { emptyStore "alice".toList [] with
      credentials := [("stale".toList, "x:password0".toList)] }
    emptyWorld (by decide) rfl rfl rfl).2.2.1

/-! ### The scratch file and the scan of the master file -/

/-- On every normal return of `saveUserCredentialsToFile` the scratch file is gone. -/
theorem saveUserCredentialsToFile_removes_scratch (codec : Codec) (pm : PasswordManager)
    (w : World) (h : (saveUserCredentialsToFile codec pm w).result = .returned ()) :
    (saveUserCredentialsToFile codec pm w).world.files tempUserCredentials = none := by
  unfold saveUserCredentialsToFile at h ⊢
  cases hopen : w.ofstream_trunc tempUserCredentials with
  | none =>
    rw [hopen] at h
    cases h
  | some w1 =>
    rw [hopen] at h
    simp only [] at h ⊢
    split_ifs at h ⊢
    simp [World.remove]

/-- On every normal return of `loadUserCredentialsFromFile` the scratch file is gone. -/
theorem loadUserCredentialsFromFile_removes_scratch (codec : Codec) (pm : PasswordManager)
    (w : World) (b : Bool) (h : (loadUserCredentialsFromFile codec pm w).result = .returned b) :
    (loadUserCredentialsFromFile codec pm w).world.files tempUserCredentials = none := by
  unfold loadUserCredentialsFromFile at h ⊢
  simp only [] at h ⊢
  split_ifs at h ⊢
  cases hopen : (Decompression.decompress codec w compressedFile
      tempUserCredentials).2.ifstream tempUserCredentials with
  | none =>
    rw [hopen] at h
    cases h
  | some content =>
    simp [World.remove]

/-- C13, where the code leaves the scratch file: with a compress that reports failure,
`saveUserCredentialsToFile` for the pair (alice, "hunter2pass") in a world without files
throws the compress exception, and the scratch file, which did not exist before the call,
exists afterwards and holds the line of the pair. -/
theorem scratch_file_left_after_failed_compress :
    (saveUserCredentialsToFile failingCodec (emptyStore "alice".toList "hunter2pass".toList)
      emptyWorld).result = .threw .compressFailed ∧
    emptyWorld.files tempUserCredentials = none ∧
    (saveUserCredentialsToFile failingCodec (emptyStore "alice".toList "hunter2pass".toList)
      emptyWorld).world.files tempUserCredentials = some "alice,hunter2pass\n".toList := by
  decide

/-- C16, where the code departs from a line-by-line decision: on the decompressed text
"bob,secret\nalice\n" (which is also what `saveUserCredentialsToFile` writes for the
username bob and the password "secret\nalice"), `loadUserCredentialsFromFile` for the pair
(alice, "secret") returns true, although no line of the text has alice as its first field
and secret as its second: the password field is the one left from the line of bob. -/
theorem stale_password_field_matches :
    (loadUserCredentialsFromFile plainCodec (emptyStore "alice".toList "secret".toList)
      staleWorld).result = .returned true ∧
    specScan "alice".toList "secret".toList staleContent = false ∧
    (saveUserCredentialsToFile plainCodec (emptyStore "bob".toList "secret\nalice".toList)
      emptyWorld).world.files compressedFile = some staleContent := by
  decide

/-! ### Listing -/

theorem findFrom_split (c : Char) (a b : Str) (ha : ∀ x ∈ a, x ≠ c) :
    ∀ i, findFrom c (a ++ c :: b) i = i + a.length := by
  induction a with
  | nil => intro i; simp [findFrom]
  | cons x t ih =>
    intro i
    have hx : x ≠ c := ha x (List.mem_cons_self _ _)
    have h := ih (fun y hy => ha y (List.mem_cons_of_mem _ hy)) (i + 1)
    simp only [List.cons_append, findFrom, hx, if_false, List.length_cons]
    show findFrom c (t ++ c :: b) (i + 1) = i + (t.length + 1)
    rw [h]
    omega

/-- The row of a payload `a ++ ":" ++ b` with no ':' in `a` and a length that fits
`size_t`: the username column shows `a`, and `b` follows whole. -/
theorem showRow_split (s a b : Str) (ha : ∀ x ∈ a, x ≠ ':')
    (hlen : (a ++ ':' :: b).length < 2 ^ 64) :
    showRow (s, a ++ ':' :: b)
      = setw_left 20 s ++ setw_left 20 a ++ b ++ "\n".toList := by
  have hfind : find (a ++ ':' :: b) ':' = a.length := by
    unfold find
    rw [findFrom_split ':' a b ha 0]
    omega
  have hlen2 : a.length + 1 + b.length < 2 ^ 64 := by
    simp only [List.length_append, List.length_cons] at hlen
    omega
  have hmod : (a.length + 1) % 2 ^ 64 = a.length + 1 :=
    Nat.mod_eq_of_lt (by omega)
  have huser : substr (a ++ ':' :: b) 0 a.length = a := by
    simp [substr]
  have hdrop : (a ++ ':' :: b).drop (a.length + 1) = b := by
    have h1 : a ++ ':' :: b = (a ++ [':']) ++ b := by simp
    have h2 : a.length + 1 = (a ++ [':']).length := by simp
    rw [h1, h2, List.drop_left]
  have hpass : substr (a ++ ':' :: b) (a.length + 1) npos = b := by
    unfold substr
    rw [hdrop]
    apply List.take_of_length_le
    unfold npos
    omega
  simp only [showRow, hfind, hmod, huser, hpass]

theorem foldl_print (f : Str × Str → Str) (l : List (Str × Str)) :
    ∀ (w2 : World),
      (l.foldl (fun out entry => out.print (f entry)) w2).cout
          = w2.cout ++ (l.map f).flatten ∧
      (l.foldl (fun out entry => out.print (f entry)) w2).files = w2.files := by
  induction l with
  | nil => intro w2; simp
  | cons e t ih =>
    intro w2
    rw [List.foldl_cons]
    obtain ⟨h1, h2⟩ := ih (w2.print (f e))
    rw [h1, h2]
    simp [World.print]

/-- C17: `showAllPasswords` returns normally and leaves the object and the files as they
were.  On a store with records it prints the header and then one row per record in list
order; the row of a record whose payload is `a ++ ":" ++ b`, with no ':' in `a` (so this
is its first ':') and a length that fits `size_t`, shows the service name and `a`, each
padded to 20 columns, and then `b` whole.  On an empty store it prints one line. -/
theorem showAllPasswords_rows (pm : PasswordManager) (w : World) :
    (showAllPasswords pm w).result = .returned () ∧
    (showAllPasswords pm w).self = pm ∧
    (showAllPasswords pm w).world.files = w.files ∧
    (pm.credentials = [] →
      (showAllPasswords pm w).world.cout = w.cout ++ "No passwords stored.\n".toList) ∧
    (pm.credentials ≠ [] →
      ∃ rows : List Str, rows.length = pm.credentials.length ∧
        (showAllPasswords pm w).world.cout = w.cout ++ showHeader ++ rows.flatten ∧
        ∀ (i : Nat) (s a b : Str), pm.credentials[i]? = some (s, a ++ ':' :: b) →
          (∀ x ∈ a, x ≠ ':') → (a ++ ':' :: b).length < 2 ^ 64 →
          rows[i]? = some (setw_left 20 s ++ setw_left 20 a ++ b ++ "\n".toList)) := by
  cases hc : pm.credentials with
  | nil =>
    refine ⟨?_, ?_, ?_, ?_, ?_⟩
    · simp [showAllPasswords, hc]
    · simp [showAllPasswords, hc]
    · simp [showAllPasswords, hc, World.print]
    · intro _
      simp [showAllPasswords, hc, World.print]
    · intro h
      exact absurd rfl h
  | cons e t =>
    obtain ⟨h1, h2⟩ := foldl_print showRow (e :: t) (w.print showHeader)
    refine ⟨?_, ?_, ?_, ?_, ?_⟩
    · simp [showAllPasswords, hc]
    · simp [showAllPasswords, hc]
    · simp only [showAllPasswords, hc, List.isEmpty_cons, Bool.false_eq_true, if_false]
      rw [h2]
      rfl
    · intro h
      cases h
    · intro _
      refine ⟨(e :: t).map showRow, by simp, ?_, ?_⟩
      · simp only [showAllPasswords, hc, List.isEmpty_cons, Bool.false_eq_true, if_false]
        rw [h1]
        rfl
      · intro i s a b hi ha hlen
        rw [List.getElem?_map, hi]
        simp only [Option.map_some']
        rw [showRow_split s a b ha hlen]

/-- C17 on a store with one record whose password holds a second ':': the row shows the
username alice and the password "Sup3r:Secret!". -/
theorem showAllPasswords_rows_witness :
    ∃ rows : List Str, rows.length = 1 ∧
      (showAllPasswords
        { emptyStore "alice".toList [] with
          credentials := [("github".toList, "alice:Sup3r:Secret!".toList)] }
        emptyWorld).world.cout = [] ++ showHeader ++ rows.flatten ∧
      rows[0]? = some (setw_left 20 "github".toList ++ setw_left 20 "alice".toList
        ++ "Sup3r:Secret!".toList ++ "\n".toList) := by
  obtain ⟨rows, hlen, hcout, hrow⟩ := (showAllPasswords_rows
    { emptyStore "alice".toList [] with
      credentials := [("github".toList, "alice:Sup3r:Secret!".toList)] }
    emptyWorld).2.2.2.2 (by decide)
  exact ⟨rows, hlen, hcout,
    hrow 0 "github".toList "alice".toList "Sup3r:Secret!".toList rfl (by decide) (by decide)⟩

theorem findFrom_range (c : Char) (s : Str) :
    ∀ i, findFrom c s i = npos ∨ (i ≤ findFrom c s i ∧ findFrom c s i < i + s.length) := by
  induction s with
  | nil => intro i; left; rfl
  | cons x t ih =>
    intro i
    by_cases hx : x = c
    · right
      simp only [findFrom, hx, if_true, List.length_cons]
      omega
    · simp only [findFrom, hx, if_false, List.length_cons]
      rcases ih (i + 1) with h | h
      · left; exact h
      · right; omega

/-- The positions that `showRow` passes to `substr` lie inside the payload, for a payload
whose length fits `size_t`: `substr` does not throw there. -/
theorem showRow_positions_in_range (payload : Str) (hlen : payload.length < 2 ^ 64) :
    0 ≤ payload.length ∧ (find payload ':' + 1) % 2 ^ 64 ≤ payload.length := by
  refine ⟨Nat.zero_le _, ?_⟩
  unfold find
  rcases findFrom_range ':' payload 0 with h | h
  · rw [h]
    have h0 : (npos + 1) % 2 ^ 64 = 0 := by decide
    rw [h0]
    exact Nat.zero_le _
  · have hlt : findFrom ':' payload 0 + 1 < 2 ^ 64 := by omega
    rw [Nat.mod_eq_of_lt hlt]
    omega

end PasswordNS
